import Mathlib

/-!
Verification of the `AI_toolbox` scripts.

This file gives a shallow embedding of the text-processing parts of
`summarize_book.py` and `litreview.py` and proves the testable
properties stated in the specification about them.

Conventions used throughout:
  * Python strings are Lean `String`s; scanning functions work on the
    underlying `List Char`.
  * Python `while` loops and the recursive scanner of `parse_sections`
    are embedded as fuel-indexed functions whose fuel is instantiated to
    the length of the scanned text.  A stabilization theorem shows that
    any fuel at least that length yields the same result, which is the
    termination statement for the Python loop.
  * Whitespace is the Unicode whitespace set recognized by Python
    regular expressions and by `str.strip`.
-/

/-- Python whitespace: the characters matched by a Python regular
expression class for whitespace on `str`, and stripped by `str.strip`. -/
def pyIsSpace (c : Char) : Bool :=
  (0x09 ≤ c.toNat && c.toNat ≤ 0x0d) || (0x1c ≤ c.toNat && c.toNat ≤ 0x1f) ||
  c.toNat = 0x20 || c.toNat = 0x85 || c.toNat = 0xa0 || c.toNat = 0x1680 ||
  (0x2000 ≤ c.toNat && c.toNat ≤ 0x200a) || c.toNat = 0x2028 || c.toNat = 0x2029 ||
  c.toNat = 0x202f || c.toNat = 0x205f || c.toNat = 0x3000

/-- `str.strip()`: drop whitespace from both ends. -/
def pyStrip (l : List Char) : List Char :=
  ((l.dropWhile pyIsSpace).reverse.dropWhile pyIsSpace).reverse

/-- Worker for whitespace collapsing.  The flag records whether the scan
is currently inside a whitespace run whose single replacement space has
already been emitted. -/
def collapseWsAux : Bool → List Char → List Char
  | _, [] => []
  | inRun, c :: cs =>
    if pyIsSpace c then
      if inRun then collapseWsAux true cs else ' ' :: collapseWsAux true cs
    else c :: collapseWsAux false cs

/-- Replace every maximal whitespace run by a single space, as the
substitution of a whitespace-run pattern by one space does in
`parse_sections`. -/
def collapseWs (l : List Char) : List Char := collapseWsAux false l

/-- The node type built by `parse_sections`: an identifier, a title and
the ordered list of subsections. -/
inductive Section where
  | mk (section_id : String) (title : String) (subsections : List Section)

/-- Identifier of a section node. -/
def Section.section_id : Section → String
  | .mk i _ _ => i

/-- Title of a section node. -/
def Section.title : Section → String
  | .mk _ t _ => t

/-- Subsections of a section node. -/
def Section.subsections : Section → List Section
  | .mk _ _ s => s

/-- Match a literal character sequence at the beginning of the input and
return the remainder. -/
def expectLit : List Char → List Char → Option (List Char)
  | [], cs => some cs
  | _ :: _, [] => none
  | l :: ls, c :: cs => if c = l then expectLit ls cs else none

/-- One-or-more whitespace, greedily: the regex piece between the tag
word and each attribute. -/
def expectWs : List Char → Option (List Char)
  | [] => none
  | c :: cs => if pyIsSpace c then some (cs.dropWhile pyIsSpace) else none

/-- Greedy run of non-quote characters: the attribute-value piece of the
opening-tag regex. -/
def spanNotQuote : List Char → List Char × List Char
  | [] => ([], [])
  | c :: cs =>
    if c = '"' then ([], c :: cs)
    else
      let p := spanNotQuote cs
      (c :: p.1, p.2)

/-- The opening-tag regex of `parse_sections`: the tag word, whitespace,
a quoted id attribute, whitespace, a quoted title attribute and the
closing angle bracket, anchored at the start of the input.  Returns the
two captured attribute values and the remainder. -/
def matchOpenTag (cs : List Char) : Option (String × String × List Char) :=
  (expectLit "<section".data cs).bind fun r1 =>
  (expectWs r1).bind fun r2 =>
  (expectLit "id=\"".data r2).bind fun r3 =>
  (fun p : List Char × List Char =>
    if p.1 = [] then none else
    (expectLit "\"".data p.2).bind fun r5 =>
    (expectWs r5).bind fun r6 =>
    (expectLit "title=\"".data r6).bind fun r7 =>
    (fun q : List Char × List Char =>
      if q.1 = [] then none else
      (expectLit "\">".data q.2).bind fun r9 =>
      some (String.mk p.1, String.mk q.1, r9)) (spanNotQuote r7)) (spanNotQuote r3)

/-- Does the input start with the closing section tag? -/
def isCloseTag (cs : List Char) : Bool := (expectLit "</section>".data cs).isSome

/-- Combined fuel-indexed embedding of the inner recursion of
`parse_sections`.  The first component is the attempt to parse one
section at the current position (the recursive helper of the Python
code); the second is its subsection-scanning loop, returning the
collected subsections and the position after the matching closing tag
(or the end of input).  One shared fuel makes the mutual recursion
structural. -/
def parseAux : Nat → List Char → Option (Section × List Char) × (List Section × List Char)
  | 0, cs => (none, ([], cs))
  | f + 1, cs =>
    (match matchOpenTag cs with
     | none => none
     | some (i, t, rest) =>
       match (parseAux f rest).2 with
       | (subs, r2) => some (Section.mk i t subs, r2),
     match cs with
     | [] => ([], [])
     | _ :: cs' =>
       if isCloseTag cs then ([], cs.drop 10)
       else
         match (parseAux f cs).1 with
         | some (sub, rest) =>
           match (parseAux f rest).2 with
           | (subs, r2) => (sub :: subs, r2)
         | none => (parseAux f cs').2)

/-- Attempt to parse one section at the start of the input. -/
def parseSectionF (fuel : Nat) (cs : List Char) : Option (Section × List Char) :=
  (parseAux fuel cs).1

/-- The subsection loop: scan until the closing tag or the end of input,
collecting subsections, skipping one character when nothing matches. -/
def parseBodyF (fuel : Nat) (cs : List Char) : List Section × List Char :=
  (parseAux fuel cs).2

/-- The top-level loop of `parse_sections`: repeatedly try to parse a
root section, advancing one character on failure. -/
def topLoopF : Nat → List Char → List Section
  | 0, _ => []
  | _ + 1, [] => []
  | f + 1, c :: cs' =>
    match parseSectionF f (c :: cs') with
    | some (s, rest) => s :: topLoopF f rest
    | none => topLoopF f cs'

/-- The text `parse_sections` actually scans: input stripped and with
every whitespace run collapsed to one space. -/
def scanInput (text : String) : List Char := collapseWs (pyStrip text.data)

/-- `parse_sections`: collapse whitespace, then scan the whole text for
root sections. -/
def parse_sections (text : String) : List Section :=
  topLoopF (scanInput text).length (scanInput text)

-- Equation lemmas for the two projections of `parseAux`.

theorem parseSectionF_zero (cs : List Char) : parseSectionF 0 cs = none := rfl

theorem parseSectionF_succ (f : Nat) (cs : List Char) :
    parseSectionF (f + 1) cs =
      match matchOpenTag cs with
      | none => none
      | some (i, t, rest) =>
          some (Section.mk i t (parseBodyF f rest).1, (parseBodyF f rest).2) := rfl

theorem parseBodyF_zero (cs : List Char) : parseBodyF 0 cs = ([], cs) := rfl

theorem parseBodyF_succ_nil (f : Nat) : parseBodyF (f + 1) [] = ([], []) := rfl

theorem parseBodyF_succ_cons (f : Nat) (c : Char) (cs' : List Char) :
    parseBodyF (f + 1) (c :: cs') =
      if isCloseTag (c :: cs') then ([], (c :: cs').drop 10)
      else
        match parseSectionF f (c :: cs') with
        | some (sub, rest) => ((sub :: (parseBodyF f rest).1, (parseBodyF f rest).2))
        | none => parseBodyF f cs' := rfl

-- Basic facts about the scanning primitives.

theorem expectLit_iff (l cs r : List Char) : expectLit l cs = some r ↔ cs = l ++ r := by
  induction l generalizing cs with
  | nil => simp [expectLit]
  | cons a l ih =>
    cases cs with
    | nil => simp [expectLit]
    | cons c cs =>
      by_cases h : c = a
      · subst h; simp [expectLit, ih]
      · simp [expectLit, h]

theorem expectLit_append (l r : List Char) : expectLit l (l ++ r) = some r :=
  (expectLit_iff l (l ++ r) r).mpr rfl

theorem expectWs_some {cs r : List Char} (h : expectWs cs = some r) :
    ∃ c w, cs = (c :: w) ++ r ∧ pyIsSpace c = true ∧ ∀ x ∈ w, pyIsSpace x = true := by
  cases cs with
  | nil => simp [expectWs] at h
  | cons c cs' =>
    by_cases hc : pyIsSpace c
    · simp [expectWs, hc] at h
      refine ⟨c, cs'.takeWhile pyIsSpace, ?_, hc, ?_⟩
      · simp [← h, List.takeWhile_append_dropWhile]
      · intro x hx
        exact List.mem_takeWhile_imp hx
    · simp [expectWs, hc] at h

theorem expectWs_cons {c d : Char} (hc : pyIsSpace c = true) (hd : pyIsSpace d = false)
    (rest : List Char) : expectWs (c :: d :: rest) = some (d :: rest) := by
  simp [expectWs, hc, List.dropWhile_cons, hd]

theorem spanNotQuote_cons_neg {c : Char} (hc : c ≠ '"') (cs : List Char) :
    spanNotQuote (c :: cs) = (c :: (spanNotQuote cs).1, (spanNotQuote cs).2) := by
  simp [spanNotQuote, hc]

theorem spanNotQuote_eq {cs a r : List Char} (h : spanNotQuote cs = (a, r)) :
    cs = a ++ r ∧ ∀ x ∈ a, x ≠ '"' := by
  induction cs generalizing a r with
  | nil =>
    rw [show spanNotQuote [] = ([], []) from rfl] at h
    simp only [Prod.mk.injEq] at h
    obtain ⟨h1, h2⟩ := h
    subst h1; subst h2; simp
  | cons c cs ih =>
    by_cases hc : c = '"'
    · subst hc
      rw [show spanNotQuote ('"' :: cs) = ([], '"' :: cs) from by simp [spanNotQuote]] at h
      simp only [Prod.mk.injEq] at h
      obtain ⟨h1, h2⟩ := h
      subst h1; subst h2; simp
    · rw [spanNotQuote_cons_neg hc] at h
      simp only [Prod.mk.injEq] at h
      obtain ⟨h1, h2⟩ := h
      obtain ⟨g1, g2⟩ := ih (a := (spanNotQuote cs).1) (r := (spanNotQuote cs).2) rfl
      subst h1; subst h2
      refine ⟨by rw [List.cons_append, ← g1], ?_⟩
      intro x hx
      rcases List.mem_cons.mp hx with h | h
      · subst h; exact hc
      · exact g2 x h

theorem spanNotQuote_build {a : List Char} (ha : ∀ x ∈ a, x ≠ '"') (k : List Char) :
    spanNotQuote (a ++ '"' :: k) = (a, '"' :: k) := by
  induction a with
  | nil => simp [spanNotQuote]
  | cons c a ih =>
    have hc : c ≠ '"' := ha c (by simp)
    rw [List.cons_append, spanNotQuote_cons_neg hc,
      ih fun x hx => ha x (by simp [hx])]

-- The opening-tag matcher on a well-formed tag followed by arbitrary text.

theorem matchOpenTag_build {i t : List Char} (k : List Char) (hi : i ≠ [])
    (hiq : ∀ x ∈ i, x ≠ '"') (ht : t ≠ []) (htq : ∀ x ∈ t, x ≠ '"') :
    matchOpenTag ('<' :: 's' :: 'e' :: 'c' :: 't' :: 'i' :: 'o' :: 'n' :: ' ' :: 'i' :: 'd' ::
        '=' :: '"' :: (i ++ ('"' :: ' ' :: 't' :: 'i' :: 't' :: 'l' :: 'e' :: '=' :: '"' ::
          (t ++ ('"' :: '>' :: k))))) = some (String.mk i, String.mk t, k) := by
  simp only [matchOpenTag]
  rw [show ('<' :: 's' :: 'e' :: 'c' :: 't' :: 'i' :: 'o' :: 'n' :: ' ' :: 'i' :: 'd' ::
      '=' :: '"' :: (i ++ ('"' :: ' ' :: 't' :: 'i' :: 't' :: 'l' :: 'e' :: '=' :: '"' ::
        (t ++ ('"' :: '>' :: k))))) =
      "<section".data ++ (' ' :: 'i' :: 'd' :: '=' :: '"' ::
        (i ++ ('"' :: ' ' :: 't' :: 'i' :: 't' :: 'l' :: 'e' :: '=' :: '"' ::
          (t ++ ('"' :: '>' :: k))))) from rfl,
    expectLit_append, Option.some_bind,
    expectWs_cons (by decide) (by decide),
    Option.some_bind,
    show ('i' :: 'd' :: '=' :: '"' ::
        (i ++ ('"' :: ' ' :: 't' :: 'i' :: 't' :: 'l' :: 'e' :: '=' :: '"' ::
          (t ++ ('"' :: '>' :: k))))) =
      "id=\"".data ++ (i ++ ('"' :: ' ' :: 't' :: 'i' :: 't' :: 'l' :: 'e' :: '=' :: '"' ::
        (t ++ ('"' :: '>' :: k)))) from rfl,
    expectLit_append, Option.some_bind,
    spanNotQuote_build hiq]
  simp only [if_neg hi]
  rw [show ('"' :: ' ' :: 't' :: 'i' :: 't' :: 'l' :: 'e' :: '=' :: '"' ::
        (t ++ ('"' :: '>' :: k))) =
      "\"".data ++ (' ' :: 't' :: 'i' :: 't' :: 'l' :: 'e' :: '=' :: '"' ::
        (t ++ ('"' :: '>' :: k))) from rfl,
    expectLit_append, Option.some_bind,
    expectWs_cons (by decide) (by decide),
    Option.some_bind,
    show ('t' :: 'i' :: 't' :: 'l' :: 'e' :: '=' :: '"' :: (t ++ ('"' :: '>' :: k))) =
      "title=\"".data ++ (t ++ ('"' :: '>' :: k)) from rfl,
    expectLit_append, Option.some_bind,
    spanNotQuote_build htq]
  simp only [if_neg ht]
  rw [show ('"' :: '>' :: k) = "\">".data ++ k from rfl, expectLit_append, Option.some_bind]

-- Decomposition of a successful opening-tag match.

theorem matchOpenTag_some {cs : List Char} {i t : String} {r : List Char}
    (h : matchOpenTag cs = some (i, t, r)) :
    ∃ w1 w2, (∀ x ∈ w1, pyIsSpace x = true) ∧ (∀ x ∈ w2, pyIsSpace x = true) ∧
      w1 ≠ [] ∧ w2 ≠ [] ∧ i.data ≠ [] ∧ (∀ x ∈ i.data, x ≠ '"') ∧
      t.data ≠ [] ∧ (∀ x ∈ t.data, x ≠ '"') ∧
      cs = "<section".data ++ (w1 ++ ("id=".data ++ ('"' :: (i.data ++ ('"' ::
        (w2 ++ ("title=".data ++ ('"' :: (t.data ++ ('"' :: '>' :: r)))))))))) := by
  simp only [matchOpenTag] at h
  cases h1 : expectLit "<section".data cs with
  | none => rw [h1] at h; simp at h
  | some r1 =>
  rw [h1, Option.some_bind] at h
  cases h2 : expectWs r1 with
  | none => rw [h2] at h; simp at h
  | some r2 =>
  rw [h2, Option.some_bind] at h
  cases h3 : expectLit "id=\"".data r2 with
  | none => rw [h3] at h; simp at h
  | some r3 =>
  rw [h3, Option.some_bind] at h
  cases h4 : spanNotQuote r3 with
  | mk idc r4 =>
  rw [h4] at h
  by_cases hidc : idc = []
  · simp [hidc] at h
  simp only [if_neg hidc] at h
  cases h5 : expectLit "\"".data r4 with
  | none => rw [h5] at h; simp at h
  | some r5 =>
  rw [h5, Option.some_bind] at h
  cases h6 : expectWs r5 with
  | none => rw [h6] at h; simp at h
  | some r6 =>
  rw [h6, Option.some_bind] at h
  cases h7 : expectLit "title=\"".data r6 with
  | none => rw [h7] at h; simp at h
  | some r7 =>
  rw [h7, Option.some_bind] at h
  cases h8 : spanNotQuote r7 with
  | mk tc r8 =>
  rw [h8] at h
  by_cases htc : tc = []
  · simp [htc] at h
  simp only [if_neg htc] at h
  cases h9 : expectLit "\">".data r8 with
  | none => rw [h9] at h; simp at h
  | some r9 =>
  rw [h9, Option.some_bind, Option.some_inj] at h
  simp only [Prod.mk.injEq] at h
  obtain ⟨hieq, hteq, hreq⟩ := h
  have hcs : cs = "<section".data ++ r1 := ((expectLit_iff _ _ _).mp h1)
  obtain ⟨cw, w, hw1, hwc, hwall⟩ := expectWs_some h2
  have hr2 : r2 = "id=\"".data ++ r3 := (expectLit_iff _ _ _).mp h3
  obtain ⟨hr3, hidq⟩ := spanNotQuote_eq h4
  have hr4 : r4 = "\"".data ++ r5 := (expectLit_iff _ _ _).mp h5
  obtain ⟨cw2, w2, hw2, hwc2, hwall2⟩ := expectWs_some h6
  have hr6 : r6 = "title=\"".data ++ r7 := (expectLit_iff _ _ _).mp h7
  obtain ⟨hr7, htcq⟩ := spanNotQuote_eq h8
  have hr8 : r8 = "\">".data ++ r9 := (expectLit_iff _ _ _).mp h9
  refine ⟨cw :: w, cw2 :: w2, ?_, ?_, by simp, by simp, ?_, ?_, ?_, ?_, ?_⟩
  · intro x hx
    rcases List.mem_cons.mp hx with h | h
    · subst h; exact hwc
    · exact hwall x h
  · intro x hx
    rcases List.mem_cons.mp hx with h | h
    · subst h; exact hwc2
    · exact hwall2 x h
  · rw [← hieq]; exact hidc
  · rw [← hieq]; exact hidq
  · rw [← hteq]; exact htc
  · rw [← hteq]; exact htcq
  · subst hcs hw1 hw2 hr2 hr3 hr4 hr6 hr7 hr8
    rw [← hieq, ← hteq, ← hreq]
    simp [List.append_assoc]

theorem matchOpenTag_length {cs : List Char} {i t : String} {r : List Char}
    (h : matchOpenTag cs = some (i, t, r)) : r.length + 26 ≤ cs.length := by
  obtain ⟨w1, w2, _, _, hw1, hw2, hi, _, ht, _, hcs⟩ := matchOpenTag_some h
  subst hcs
  have e1 : 0 < w1.length := List.length_pos.mpr hw1
  have e2 : 0 < w2.length := List.length_pos.mpr hw2
  have e3 : 0 < i.data.length := List.length_pos.mpr hi
  have e4 : 0 < t.data.length := List.length_pos.mpr ht
  have l1 : ("<section".data).length = 8 := rfl
  have l2 : ("id=".data).length = 3 := rfl
  have l3 : ("title=".data).length = 6 := rfl
  simp only [List.length_append, List.length_cons, l1, l2, l3]
  omega

theorem parseSectionF_none {cs : List Char} (hm : matchOpenTag cs = none) (f : Nat) :
    parseSectionF f cs = none := by
  cases f with
  | zero => exact parseSectionF_zero cs
  | succ g => rw [parseSectionF_succ, hm]

theorem parseSectionF_succ_some (g : Nat) {cs : List Char} {i t : String} {r0 : List Char}
    (hm : matchOpenTag cs = some (i, t, r0)) :
    parseSectionF (g + 1) cs =
      some (Section.mk i t (parseBodyF g r0).1, (parseBodyF g r0).2) := by
  rw [parseSectionF_succ, hm]

theorem parseBodyF_nil (f : Nat) : parseBodyF f [] = ([], []) := by
  cases f with
  | zero => rfl
  | succ g => exact parseBodyF_succ_nil g

theorem parseBodyF_succ_close (g : Nat) {c : Char} {cs' : List Char}
    (hcl : isCloseTag (c :: cs') = true) :
    parseBodyF (g + 1) (c :: cs') = ([], (c :: cs').drop 10) := by
  rw [parseBodyF_succ_cons, if_pos hcl]

theorem parseBodyF_succ_some (g : Nat) {c : Char} {cs' : List Char} {sub : Section}
    {rest : List Char} (hcl : isCloseTag (c :: cs') = false)
    (hs : parseSectionF g (c :: cs') = some (sub, rest)) :
    parseBodyF (g + 1) (c :: cs') = (sub :: (parseBodyF g rest).1, (parseBodyF g rest).2) := by
  rw [parseBodyF_succ_cons, if_neg (by simp [hcl]), hs]

theorem parseBodyF_succ_none (g : Nat) {c : Char} {cs' : List Char}
    (hcl : isCloseTag (c :: cs') = false) (hs : parseSectionF g (c :: cs') = none) :
    parseBodyF (g + 1) (c :: cs') = parseBodyF g cs' := by
  rw [parseBodyF_succ_cons, if_neg (by simp [hcl]), hs]

theorem topLoopF_nil (f : Nat) : topLoopF f [] = [] := by
  cases f with
  | zero => rfl
  | succ g => rfl

theorem topLoopF_cons_some (g : Nat) {c : Char} {cs' : List Char} {s : Section}
    {rest : List Char} (hs : parseSectionF g (c :: cs') = some (s, rest)) :
    topLoopF (g + 1) (c :: cs') = s :: topLoopF g rest := by
  simp only [topLoopF]; rw [hs]

theorem topLoopF_cons_none (g : Nat) {c : Char} {cs' : List Char}
    (hs : parseSectionF g (c :: cs') = none) :
    topLoopF (g + 1) (c :: cs') = topLoopF g cs' := by
  simp only [topLoopF]; rw [hs]

/-- Progress: a successful section parse strictly consumes input, and the
subsection loop never moves backwards. -/
theorem parse_len (f : Nat) :
    (∀ cs s rest, parseSectionF f cs = some (s, rest) → rest.length < cs.length) ∧
    (∀ cs : List Char, (parseBodyF f cs).2.length ≤ cs.length) := by
  induction f with
  | zero =>
    constructor
    · intro cs s rest h
      rw [parseSectionF_zero] at h
      exact absurd h (by simp)
    · intro cs
      rw [parseBodyF_zero]
  | succ g ih =>
    obtain ⟨ihS, ihB⟩ := ih
    have hS : ∀ cs s rest, parseSectionF (g + 1) cs = some (s, rest) → rest.length < cs.length := by
      intro cs s rest h
      cases hm : matchOpenTag cs with
      | none => rw [parseSectionF_none hm] at h; exact absurd h (by simp)
      | some v =>
        obtain ⟨i, t, r0⟩ := v
        rw [parseSectionF_succ_some g hm] at h
        simp only [Option.some_inj, Prod.mk.injEq] at h
        have h1 := ihB r0
        have h2 := matchOpenTag_length hm
        rw [← h.2]
        omega
    refine ⟨hS, ?_⟩
    intro cs
    cases cs with
    | nil => rw [parseBodyF_nil]
    | cons c cs' =>
      by_cases hcl : isCloseTag (c :: cs')
      · rw [parseBodyF_succ_close g hcl]
        simp only [List.length_drop, List.length_cons]
        omega
      · have hcl' : isCloseTag (c :: cs') = false := by simpa using hcl
        cases hs : parseSectionF g (c :: cs') with
        | none =>
          rw [parseBodyF_succ_none g hcl' hs]
          have := ihB cs'
          simp only [List.length_cons]
          omega
        | some v =>
          obtain ⟨sub, rest⟩ := v
          rw [parseBodyF_succ_some g hcl' hs]
          have h1 := ihB rest
          have h2 := ihS _ _ _ hs
          simp only []
          omega

/-- Stabilization: once the fuel reaches the length of the remaining
input, both components of the scanner no longer depend on it. -/
theorem parse_stab (n : Nat) :
    (∀ cs : List Char, cs.length ≤ n → ∀ f f', cs.length ≤ f + 1 → cs.length ≤ f' + 1 →
      parseSectionF f cs = parseSectionF f' cs) ∧
    (∀ cs : List Char, cs.length ≤ n → ∀ f f', cs.length ≤ f → cs.length ≤ f' →
      parseBodyF f cs = parseBodyF f' cs) := by
  induction n using Nat.strong_induction_on with
  | _ n IH =>
    have hS : ∀ cs : List Char, cs.length ≤ n → ∀ f f', cs.length ≤ f + 1 →
        cs.length ≤ f' + 1 → parseSectionF f cs = parseSectionF f' cs := by
      intro cs hn f f' hf hf'
      cases hm : matchOpenTag cs with
      | none => rw [parseSectionF_none hm, parseSectionF_none hm]
      | some v =>
        obtain ⟨i, t, r0⟩ := v
        have hlen := matchOpenTag_length hm
        obtain ⟨⟨g, rfl⟩, g', rfl⟩ : (∃ g, f = g + 1) ∧ ∃ m, f' = m + 1 :=
          ⟨⟨f - 1, by omega⟩, f' - 1, by omega⟩
        rw [parseSectionF_succ_some g hm, parseSectionF_succ_some g' hm]
        have hr0 : r0.length < n := by omega
        have hb : parseBodyF g r0 = parseBodyF g' r0 :=
          (IH r0.length hr0).2 r0 le_rfl g g' (by omega) (by omega)
        rw [hb]
    refine ⟨hS, ?_⟩
    intro cs hn f f' hf hf'
    cases cs with
    | nil => rw [parseBodyF_nil, parseBodyF_nil]
    | cons c cs' =>
      have hlen : (c :: cs').length = cs'.length + 1 := rfl
      obtain ⟨g, rfl⟩ : ∃ g, f = g + 1 := ⟨f - 1, by simp at hf; omega⟩
      obtain ⟨g', rfl⟩ : ∃ g', f' = g' + 1 := ⟨f' - 1, by simp at hf'; omega⟩
      by_cases hcl : isCloseTag (c :: cs')
      · rw [parseBodyF_succ_close g hcl, parseBodyF_succ_close g' hcl]
      · have hcl' : isCloseTag (c :: cs') = false := by simpa using hcl
        have hsec : parseSectionF g (c :: cs') = parseSectionF g' (c :: cs') :=
          hS (c :: cs') hn g g' (by simp at hf ⊢; omega) (by simp at hf' ⊢; omega)
        cases hs : parseSectionF g' (c :: cs') with
        | none =>
          rw [parseBodyF_succ_none g hcl' (hsec.trans hs), parseBodyF_succ_none g' hcl' hs]
          have hcs' : cs'.length < n := by simp at hn; omega
          exact (IH cs'.length hcs').2 cs' le_rfl g g'
            (by simp at hf; omega) (by simp at hf'; omega)
        | some v =>
          obtain ⟨sub, rest⟩ := v
          rw [parseBodyF_succ_some g hcl' (hsec.trans hs), parseBodyF_succ_some g' hcl' hs]
          have hlt := (parse_len g').1 _ _ _ hs
          have hrest : rest.length < n := by simp at hn hlt; omega
          have hb : parseBodyF g rest = parseBodyF g' rest :=
            (IH rest.length hrest).2 rest le_rfl g g'
              (by simp at hf hlt; omega) (by simp at hf' hlt; omega)
          rw [hb]

/-- Stabilization for the top-level loop of `parse_sections`. -/
theorem topLoopF_stab (n : Nat) :
    ∀ cs : List Char, cs.length ≤ n → ∀ f f', cs.length ≤ f → cs.length ≤ f' →
      topLoopF f cs = topLoopF f' cs := by
  induction n using Nat.strong_induction_on with
  | _ n IH =>
    intro cs hn f f' hf hf'
    cases cs with
    | nil => rw [topLoopF_nil, topLoopF_nil]
    | cons c cs' =>
      obtain ⟨g, rfl⟩ : ∃ g, f = g + 1 := ⟨f - 1, by simp at hf; omega⟩
      obtain ⟨g', rfl⟩ : ∃ g', f' = g' + 1 := ⟨f' - 1, by simp at hf'; omega⟩
      have hsec : parseSectionF g (c :: cs') = parseSectionF g' (c :: cs') :=
        (parse_stab (c :: cs').length).1 _ le_rfl g g'
          (by simp at hf ⊢; omega) (by simp at hf' ⊢; omega)
      cases hs : parseSectionF g' (c :: cs') with
      | none =>
        rw [topLoopF_cons_none g (hsec.trans hs), topLoopF_cons_none g' hs]
        have hcs' : cs'.length < n := by simp at hn; omega
        exact IH cs'.length hcs' cs' le_rfl g g'
          (by simp at hf; omega) (by simp at hf'; omega)
      | some v =>
        obtain ⟨s, rest⟩ := v
        rw [topLoopF_cons_some g (hsec.trans hs), topLoopF_cons_some g' hs]
        have hlt := (parse_len g').1 _ _ _ hs
        have hrest : rest.length < n := by simp at hn hlt; omega
        rw [IH rest.length hrest rest le_rfl g g'
          (by simp at hf hlt; omega) (by simp at hf' hlt; omega)]

/-- Any fuel at least the length of the scanned text computes
`parse_sections`: the scan of the Python loop terminates with this value. -/
theorem topLoopF_eq_parse_sections (s : String) (f : Nat)
    (hf : (scanInput s).length ≤ f) : topLoopF f (scanInput s) = parse_sections s :=
  topLoopF_stab (scanInput s).length (scanInput s) le_rfl f (scanInput s).length hf le_rfl

/-! Whitespace-normalized character lists: every whitespace character is
a plain space and no two adjacent characters are both whitespace.  The
collapsed text scanned by `parse_sections` always has this shape, and on
such text collapsing is the identity. -/

/-- A character that survives whitespace collapsing unchanged. -/
def charOk (c : Char) : Bool := !pyIsSpace c || c == ' '

/-- Whitespace-normalized: only plain single spaces. -/
def wsNorm : List Char → Bool
  | [] => true
  | [c] => charOk c
  | a :: b :: rest => charOk a && !(pyIsSpace a && pyIsSpace b) && wsNorm (b :: rest)

theorem wsNorm_cons_of {c : Char} {l : List Char} (hc : charOk c = true)
    (hl : wsNorm l = true)
    (hhead : ∀ d, l.head? = some d → ¬(pyIsSpace c = true ∧ pyIsSpace d = true)) :
    wsNorm (c :: l) = true := by
  cases l with
  | nil => simpa [wsNorm] using hc
  | cons d l' =>
    have hd := hhead d rfl
    show (charOk c && !(pyIsSpace c && pyIsSpace d) && wsNorm (d :: l')) = true
    simp only [hc, hl, Bool.and_eq_true, Bool.not_eq_true', Bool.true_and, Bool.and_true]
    cases h1 : pyIsSpace c with
    | false => rfl
    | true =>
      cases h2 : pyIsSpace d with
      | false => rfl
      | true => exact absurd ⟨h1, h2⟩ hd

theorem wsNorm_cons_elim {c : Char} {l : List Char} (h : wsNorm (c :: l) = true) :
    charOk c = true ∧ wsNorm l = true ∧
      (∀ d, l.head? = some d → ¬(pyIsSpace c = true ∧ pyIsSpace d = true)) := by
  cases l with
  | nil => exact ⟨h, rfl, by simp⟩
  | cons d l' =>
    have h' : (charOk c && !(pyIsSpace c && pyIsSpace d) && wsNorm (d :: l')) = true := h
    simp only [Bool.and_eq_true, Bool.not_eq_true'] at h'
    refine ⟨h'.1.1, h'.2, ?_⟩
    intro e he hcontra
    simp only [List.head?_cons, Option.some_inj] at he
    subst he
    rw [hcontra.1, hcontra.2] at h'
    simpa using h'.1.2

theorem wsNorm_append_elim {a b : List Char} (h : wsNorm (a ++ b) = true) :
    wsNorm a = true ∧ wsNorm b = true := by
  induction a with
  | nil => exact ⟨rfl, h⟩
  | cons c a' ih =>
    rw [List.cons_append] at h
    obtain ⟨hc, hrest, hhead⟩ := wsNorm_cons_elim h
    obtain ⟨ha', hb⟩ := ih hrest
    refine ⟨?_, hb⟩
    cases a' with
    | nil => simpa [wsNorm] using hc
    | cons d a'' =>
      exact wsNorm_cons_of hc ha' fun e he => by
        simp only [List.head?_cons, Option.some_inj] at he
        subst he
        exact hhead d (by simp)

theorem wsNorm_append_of {a b : List Char} (ha : wsNorm a = true) (hb : wsNorm b = true)
    (hab : ∀ x y, a.getLast? = some x → b.head? = some y →
      ¬(pyIsSpace x = true ∧ pyIsSpace y = true)) :
    wsNorm (a ++ b) = true := by
  induction a with
  | nil => simpa using hb
  | cons c a' ih =>
    obtain ⟨hc, ha', hhead⟩ := wsNorm_cons_elim ha
    rw [List.cons_append]
    cases a' with
    | nil =>
      refine wsNorm_cons_of hc hb ?_
      intro d hd
      exact hab c d rfl hd
    | cons d a'' =>
      refine wsNorm_cons_of hc (ih ha' ?_) ?_
      · intro x y hx hy
        exact hab x y (by rw [List.getLast?_cons_cons]; exact hx) hy
      · intro e he
        rw [List.cons_append, List.head?_cons, Option.some_inj] at he
        subst he
        exact hhead d rfl

theorem wsNorm_append_head {a b : List Char} (ha : wsNorm a = true) (hb : wsNorm b = true)
    (h : ∀ y, b.head? = some y → pyIsSpace y = false) : wsNorm (a ++ b) = true := by
  refine wsNorm_append_of ha hb ?_
  intro x y _ hy hcontra
  rw [h y hy] at hcontra
  exact absurd hcontra.2 (by simp)

theorem wsNorm_append_last {a b : List Char} (ha : wsNorm a = true) (hb : wsNorm b = true)
    (h : ∀ x, a.getLast? = some x → pyIsSpace x = false) : wsNorm (a ++ b) = true := by
  refine wsNorm_append_of ha hb ?_
  intro x y hx _ hcontra
  rw [h x hx] at hcontra
  exact absurd hcontra.1 (by simp)

theorem wsNorm_inner {p x q : List Char} (h : wsNorm (p ++ x ++ q) = true) :
    wsNorm x = true :=
  (wsNorm_append_elim (wsNorm_append_elim h).1).2

-- Collapsing always yields normalized text, and is the identity on it.

theorem collapseAux_true_skip {w : List Char} (hw : ∀ c ∈ w, pyIsSpace c = true)
    (l : List Char) : collapseWsAux true (w ++ l) = collapseWsAux true l := by
  induction w with
  | nil => rfl
  | cons c w' ih =>
    rw [List.cons_append]
    show (if pyIsSpace c then collapseWsAux true (w' ++ l)
      else c :: collapseWsAux false (w' ++ l)) = collapseWsAux true l
    rw [if_pos (hw c (by simp))]
    exact ih fun x hx => hw x (by simp [hx])

theorem collapseAux_props (l : List Char) :
    wsNorm (collapseWsAux false l) = true ∧ wsNorm (collapseWsAux true l) = true ∧
      (∀ d, (collapseWsAux true l).head? = some d → pyIsSpace d = false) := by
  induction l with
  | nil => exact ⟨rfl, rfl, by simp [collapseWsAux]⟩
  | cons c cs ih =>
    obtain ⟨ihf, iht, ihh⟩ := ih
    by_cases hc : pyIsSpace c
    · have e1 : collapseWsAux false (c :: cs) = ' ' :: collapseWsAux true cs := by
        show (if pyIsSpace c then
          (if (false : Bool) then collapseWsAux true cs else ' ' :: collapseWsAux true cs)
          else c :: collapseWsAux false cs) = _
        rw [if_pos hc]; rfl
      have e2 : collapseWsAux true (c :: cs) = collapseWsAux true cs := by
        show (if pyIsSpace c then
          (if (true : Bool) then collapseWsAux true cs else ' ' :: collapseWsAux true cs)
          else c :: collapseWsAux false cs) = _
        rw [if_pos hc]; rfl
      refine ⟨?_, ?_, ?_⟩
      · rw [e1]
        refine wsNorm_cons_of (by decide) iht ?_
        intro d hd hcontra
        rw [ihh d hd] at hcontra
        exact absurd hcontra.2 (by simp)
      · rw [e2]; exact iht
      · rw [e2]; exact ihh
    · have hc' : pyIsSpace c = false := by simpa using hc
      have e1 : collapseWsAux false (c :: cs) = c :: collapseWsAux false cs := by
        show (if pyIsSpace c then _ else c :: collapseWsAux false cs) = _
        rw [if_neg hc]
      have e2 : collapseWsAux true (c :: cs) = c :: collapseWsAux false cs := by
        show (if pyIsSpace c then _ else c :: collapseWsAux false cs) = _
        rw [if_neg hc]
      have hcons : wsNorm (c :: collapseWsAux false cs) = true := by
        refine wsNorm_cons_of (by simp [charOk, hc']) ihf ?_
        intro d _ hcontra
        rw [hc'] at hcontra
        exact absurd hcontra.1 (by simp)
      exact ⟨by rw [e1]; exact hcons, by rw [e2]; exact hcons,
        by rw [e2]; intro d hd; simp only [List.head?_cons, Option.some_inj] at hd;
           subst hd; exact hc'⟩

theorem collapseWs_wsNorm (l : List Char) : wsNorm (collapseWs l) = true :=
  (collapseAux_props l).1

theorem collapse_fix {l : List Char} (h : wsNorm l = true) : collapseWs l = l := by
  induction l with
  | nil => rfl
  | cons c cs ih =>
    obtain ⟨hc, hcs, hhead⟩ := wsNorm_cons_elim h
    by_cases hws : pyIsSpace c
    · have hsp : c = ' ' := by
        simp only [charOk, hws, Bool.not_true, Bool.false_or, beq_iff_eq] at hc
        exact hc
      subst hsp
      show (if pyIsSpace ' ' then ' ' :: collapseWsAux true cs
        else ' ' :: collapseWsAux false cs) = ' ' :: cs
      rw [if_pos (by decide)]
      cases cs with
      | nil => rfl
      | cons d cs' =>
        have hd : pyIsSpace d = false := by
          rcases hcontra : pyIsSpace d with _ | _
          · rfl
          · exact absurd ⟨by decide, hcontra⟩ (hhead d rfl)
        have et : collapseWsAux true (d :: cs') = d :: collapseWsAux false cs' := by
          show (if pyIsSpace d then _ else d :: collapseWsAux false cs') = _
          rw [if_neg (by simp [hd])]
        have ef : collapseWsAux false (d :: cs') = d :: collapseWsAux false cs' := by
          show (if pyIsSpace d then _ else d :: collapseWsAux false cs') = _
          rw [if_neg (by simp [hd])]
        have := ih hcs
        rw [collapseWs, ef] at this
        rw [et, this]
    · show (if pyIsSpace c then _ else c :: collapseWsAux false cs) = c :: cs
      rw [if_neg hws]
      rw [collapseWs] at ih
      rw [ih hcs]

theorem dropWhile_eq_self_of_head {l : List Char}
    (h : ∀ c, l.head? = some c → pyIsSpace c = false) : l.dropWhile pyIsSpace = l := by
  cases l with
  | nil => rfl
  | cons c cs => simp [List.dropWhile_cons, h c rfl]

theorem pyStrip_eq_self {l : List Char}
    (h1 : ∀ c, l.head? = some c → pyIsSpace c = false)
    (h2 : ∀ c, l.getLast? = some c → pyIsSpace c = false) : pyStrip l = l := by
  unfold pyStrip
  rw [dropWhile_eq_self_of_head h1]
  rw [dropWhile_eq_self_of_head (by
    intro c hc
    rw [List.head?_reverse] at hc
    exact h2 c hc)]
  exact List.reverse_reverse l

/-! Serialization of section trees back to the tag markup that
`parse_sections` reads, and the round-trip theorem. -/

/-- Serialize a list of sibling sections to the nested tag markup. -/
def serialize_list : List Section → List Char
  | [] => []
  | Section.mk i t subs :: rest =>
    "<section id=\"".data ++ i.data ++ "\" title=\"".data ++ t.data ++ "\">".data ++
      serialize_list subs ++ "</section>".data ++ serialize_list rest

/-- Serialize one section tree. -/
def serialize_section (s : Section) : List Char := serialize_list [s]

/-- A section tree whose serialization round-trips exactly: attribute
values are nonempty, contain no quote character (which would escape the
attribute), and are whitespace-normalized (whitespace collapsing would
otherwise change them). -/
inductive WfSection : Section → Prop where
  | mk : ∀ {i t : String} {subs : List Section},
      i.data ≠ [] → (∀ x ∈ i.data, x ≠ '"') → wsNorm i.data = true →
      t.data ≠ [] → (∀ x ∈ t.data, x ≠ '"') → wsNorm t.data = true →
      (∀ s ∈ subs, WfSection s) → WfSection (Section.mk i t subs)

theorem serialize_list_nil : serialize_list [] = [] := by rw [serialize_list]

theorem serialize_list_cons (i t : String) (subs rest : List Section) :
    serialize_list (Section.mk i t subs :: rest) =
      "<section id=\"".data ++ i.data ++ "\" title=\"".data ++ t.data ++ "\">".data ++
        serialize_list subs ++ "</section>".data ++ serialize_list rest := by
  rw [serialize_list]

theorem serialize_list_cons_append (i t : String) (subs rest : List Section)
    (k : List Char) :
    serialize_list (Section.mk i t subs :: rest) ++ k =
      '<' :: 's' :: 'e' :: 'c' :: 't' :: 'i' :: 'o' :: 'n' :: ' ' :: 'i' :: 'd' ::
        '=' :: '"' :: (i.data ++ ('"' :: ' ' :: 't' :: 'i' :: 't' :: 'l' :: 'e' :: '=' :: '"' ::
          (t.data ++ ('"' :: '>' ::
            (serialize_list subs ++ ("</section>".data ++ (serialize_list rest ++ k))))))) := by
  rw [serialize_list_cons,
    show "<section id=\"".data =
      ['<', 's', 'e', 'c', 't', 'i', 'o', 'n', ' ', 'i', 'd', '=', '"'] from rfl,
    show "\" title=\"".data = ['"', ' ', 't', 'i', 't', 'l', 'e', '=', '"'] from rfl,
    show "\">".data = ['"', '>'] from rfl]
  simp [List.append_assoc]

theorem serialize_head {i t : String} (subs rest : List Section) :
    ∃ tl, serialize_list (Section.mk i t subs :: rest) = '<' :: tl := by
  have h := serialize_list_cons_append i t subs rest []
  rw [List.append_nil] at h
  exact ⟨_, h⟩

theorem serialize_list_cons_length (i t : String) (subs rest : List Section) :
    (serialize_list (Section.mk i t subs :: rest)).length =
      34 + i.data.length + t.data.length +
        (serialize_list subs).length + (serialize_list rest).length := by
  rw [serialize_list_cons]
  simp only [List.length_append,
    show ("<section id=\"".data).length = 13 from rfl,
    show ("\" title=\"".data).length = 9 from rfl,
    show ("\">".data).length = 2 from rfl,
    show ("</section>".data).length = 10 from rfl]
  omega

theorem string_mk_data (s : String) : String.mk s.data = s := by cases s; rfl

theorem isCloseTag_open (r : List Char) : isCloseTag ('<' :: 's' :: r) = false := by
  simp +decide [isCloseTag, expectLit,
    show "</section>".data = ['<', '/', 's', 'e', 'c', 't', 'i', 'o', 'n', '>'] from rfl]

theorem isCloseTag_close (k : List Char) :
    isCloseTag ("</section>".data ++ k) = true := by
  show (expectLit "</section>".data ("</section>".data ++ k)).isSome = true
  rw [expectLit_append]
  rfl

theorem serialize_head_nonws (ts : List Section) :
    ∀ y, (serialize_list ts).head? = some y → pyIsSpace y = false := by
  cases ts with
  | nil => intro y hy; simp [serialize_list_nil] at hy
  | cons s rest =>
    obtain ⟨i, t, subs⟩ := s
    obtain ⟨tl, htl⟩ := serialize_head subs rest
    intro y hy
    rw [htl] at hy
    simp only [List.head?_cons, Option.some_inj] at hy
    subst hy
    decide

/-- Round trip at the scanner level: a serialized well-formed section
followed by arbitrary text parses to exactly that section, and a
serialized sibling list followed by a closing tag parses to exactly
those subsections. -/
theorem rt_parse (fuel : Nat) :
    (∀ (i t : String) (subs rest : List Section) (k : List Char),
      WfSection (Section.mk i t subs) →
      (serialize_list (Section.mk i t subs :: rest) ++ k).length ≤ fuel + 1 →
      parseSectionF fuel (serialize_list (Section.mk i t subs :: rest) ++ k) =
        some (Section.mk i t subs, serialize_list rest ++ k)) ∧
    (∀ (ts : List Section) (k : List Char),
      (∀ s ∈ ts, WfSection s) →
      (serialize_list ts ++ ("</section>".data ++ k)).length ≤ fuel →
      parseBodyF fuel (serialize_list ts ++ ("</section>".data ++ k)) = (ts, k)) := by
  induction fuel with
  | zero =>
    constructor
    · intro i t subs rest k _ hlen
      rw [List.length_append, serialize_list_cons_length] at hlen
      omega
    · intro ts k _ hlen
      cases ts with
      | nil =>
        rw [serialize_list_nil, List.nil_append, List.length_append,
          show ("</section>".data).length = 10 from rfl] at hlen
        omega
      | cons s rest =>
        obtain ⟨i, t, subs⟩ := s
        rw [List.length_append, serialize_list_cons_length] at hlen
        omega
  | succ g ih =>
    obtain ⟨ih1, ih2⟩ := ih
    have hRT1 : ∀ (i t : String) (subs rest : List Section) (k : List Char),
        WfSection (Section.mk i t subs) →
        (serialize_list (Section.mk i t subs :: rest) ++ k).length ≤ (g + 1) + 1 →
        parseSectionF (g + 1) (serialize_list (Section.mk i t subs :: rest) ++ k) =
          some (Section.mk i t subs, serialize_list rest ++ k) := by
      intro i t subs rest k hwf hlen
      cases hwf with
      | mk hi hiq hwn ht htq twn hsubs =>
      have hL := serialize_list_cons_append i t subs rest k
      have hm : matchOpenTag (serialize_list (Section.mk i t subs :: rest) ++ k) =
          some (i, t,
            serialize_list subs ++ ("</section>".data ++ (serialize_list rest ++ k))) := by
        rw [hL]
        rw [matchOpenTag_build _ hi hiq ht htq, string_mk_data, string_mk_data]
      rw [parseSectionF_succ_some g hm]
      have hlen2 : (serialize_list subs ++
          ("</section>".data ++ (serialize_list rest ++ k))).length ≤ g := by
        rw [List.length_append, serialize_list_cons_length] at hlen
        have hi1 : 0 < i.data.length := List.length_pos.mpr hi
        have ht1 : 0 < t.data.length := List.length_pos.mpr ht
        simp only [List.length_append,
          show ("</section>".data).length = 10 from rfl] at hlen ⊢
        omega
      rw [ih2 subs (serialize_list rest ++ k) hsubs hlen2]
    refine ⟨hRT1, ?_⟩
    intro ts k hwf hlen
    cases ts with
    | nil =>
      rw [serialize_list_nil, List.nil_append] at hlen ⊢
      have hcl : isCloseTag ("</section>".data ++ k) = true := isCloseTag_close k
      have hform : "</section>".data ++ k = '<' :: ('/' :: 's' :: 'e' :: 'c' :: 't' :: 'i' ::
          'o' :: 'n' :: '>' :: k) := rfl
      rw [hform] at hcl ⊢
      rw [parseBodyF_succ_close g hcl]
      rfl
    | cons s rest =>
      obtain ⟨i, t, subs⟩ := s
      have hwf_head := hwf _ (List.mem_cons_self _ _)
      have hwf_rest : ∀ x ∈ rest, WfSection x := fun x hx => hwf x (by simp [hx])
      cases hwf_head with
      | mk hi hiq hwn ht htq twn hsubs =>
      have hL := serialize_list_cons_append i t subs rest ("</section>".data ++ k)
      have hs : parseSectionF g
          (serialize_list (Section.mk i t subs :: rest) ++ ("</section>".data ++ k)) =
          some (Section.mk i t subs, serialize_list rest ++ ("</section>".data ++ k)) := by
        refine ih1 i t subs rest _ (WfSection.mk hi hiq hwn ht htq twn hsubs) ?_
        omega
      have hcl : isCloseTag
          (serialize_list (Section.mk i t subs :: rest) ++ ("</section>".data ++ k)) = false := by
        rw [hL]; exact isCloseTag_open _
      have hcons : ∃ tl, serialize_list (Section.mk i t subs :: rest) ++
          ("</section>".data ++ k) = '<' :: tl := ⟨_, hL⟩
      obtain ⟨tl, htl⟩ := hcons
      rw [htl] at hs hcl ⊢
      rw [parseBodyF_succ_some g hcl hs]
      have hlen2 : (serialize_list rest ++ ("</section>".data ++ k)).length ≤ g := by
        rw [List.length_append, serialize_list_cons_length] at hlen
        have hi1 : 0 < i.data.length := List.length_pos.mpr hi
        have ht1 : 0 < t.data.length := List.length_pos.mpr ht
        simp only [List.length_append,
          show ("</section>".data).length = 10 from rfl] at hlen ⊢
        omega
      rw [ih2 rest k hwf_rest hlen2]

/-- Round trip at the top level: the serialization of a well-formed
sibling list scans back to exactly that list. -/
theorem rt_top (fuel : Nat) :
    ∀ ts : List Section, (∀ s ∈ ts, WfSection s) →
      (serialize_list ts).length ≤ fuel → topLoopF fuel (serialize_list ts) = ts := by
  induction fuel with
  | zero =>
    intro ts hwf hlen
    cases ts with
    | nil => rw [serialize_list_nil]; rfl
    | cons s rest =>
      obtain ⟨i, t, subs⟩ := s
      rw [serialize_list_cons_length] at hlen
      omega
  | succ g ih =>
    intro ts hwf hlen
    cases ts with
    | nil => rw [serialize_list_nil]; rfl
    | cons s rest =>
      obtain ⟨i, t, subs⟩ := s
      obtain ⟨tl, htl⟩ := serialize_head (i := i) (t := t) subs rest
      have hs : parseSectionF g (serialize_list (Section.mk i t subs :: rest)) =
          some (Section.mk i t subs, serialize_list rest) := by
        have h1 := (rt_parse g).1 i t subs rest [] (hwf _ (List.mem_cons_self _ _))
          (by rw [List.append_nil]; omega)
        rw [List.append_nil, List.append_nil] at h1
        exact h1
      rw [htl] at hs ⊢
      rw [topLoopF_cons_some g hs]
      have hrest : (serialize_list rest).length ≤ g := by
        rw [serialize_list_cons_length] at hlen
        omega
      rw [ih rest (fun x hx => hwf x (by simp [hx])) hrest]

theorem head_nonws_of_eq {l : List Char} {c : Char} (h : l.head? = some c)
    (hc : pyIsSpace c = false) : ∀ x, l.head? = some x → pyIsSpace x = false := by
  intro x hx
  rw [h, Option.some_inj] at hx
  subst hx
  exact hc

theorem last_nonws_of_eq {l : List Char} {c : Char} (h : l.getLast? = some c)
    (hc : pyIsSpace c = false) : ∀ x, l.getLast? = some x → pyIsSpace x = false := by
  intro x hx
  rw [h, Option.some_inj] at hx
  subst hx
  exact hc

theorem getLast?_append_right {a b : List Char} {c : Char} (h : b.getLast? = some c) :
    (a ++ b).getLast? = some c := by
  rw [← List.head?_reverse] at h ⊢
  rw [List.reverse_append]
  cases hb : b.reverse with
  | nil => rw [hb] at h; simp at h
  | cons d tl => rw [hb] at h; simpa using h

theorem serialize_last (ts : List Section) (h : ts ≠ []) :
    ∃ init, serialize_list ts = init ++ ['>'] := by
  induction ts with
  | nil => exact absurd rfl h
  | cons s rest ih =>
    obtain ⟨i, t, subs⟩ := s
    cases rest with
    | nil =>
      refine ⟨"<section id=\"".data ++ i.data ++ "\" title=\"".data ++ t.data ++
        "\">".data ++ serialize_list subs ++ "</section".data, ?_⟩
      rw [serialize_list_cons, serialize_list_nil]
      simp [List.append_assoc,
        show "</section>".data = "</section".data ++ ['>'] from rfl]
    | cons r rest' =>
      obtain ⟨init', hinit⟩ := ih (by simp)
      refine ⟨"<section id=\"".data ++ i.data ++ "\" title=\"".data ++ t.data ++
        "\">".data ++ serialize_list subs ++ "</section>".data ++ init', ?_⟩
      rw [serialize_list_cons, hinit]
      simp [List.append_assoc]

/-- The serialization of a well-formed sibling list is
whitespace-normalized. -/
theorem serialize_wsNorm : ∀ n (ts : List Section), sizeOf ts ≤ n →
    (∀ s ∈ ts, WfSection s) → wsNorm (serialize_list ts) = true := by
  intro n
  induction n using Nat.strong_induction_on with
  | _ n IH =>
    intro ts hsz hwf
    cases ts with
    | nil => rw [serialize_list_nil]; rfl
    | cons s rest =>
      obtain ⟨i, t, subs⟩ := s
      cases hwf _ (List.mem_cons_self _ _) with
      | mk hi hiq hwn ht htq twn hsubs =>
      have hsz1 : sizeOf subs < n := by
        have h := List.cons.sizeOf_spec (Section.mk i t subs) rest
        have h2 := Section.mk.sizeOf_spec i t subs
        omega
      have hsz2 : sizeOf rest < n := by
        have h := List.cons.sizeOf_spec (Section.mk i t subs) rest
        omega
      have hwsubs : wsNorm (serialize_list subs) = true :=
        IH (sizeOf subs) hsz1 subs le_rfl hsubs
      have hwrest : wsNorm (serialize_list rest) = true :=
        IH (sizeOf rest) hsz2 rest le_rfl fun x hx => hwf x (List.mem_cons_of_mem _ hx)
      rw [serialize_list_cons]
      have w1 : wsNorm ("<section id=\"".data) = true := by decide
      have wL2 : wsNorm ("\" title=\"".data) = true := by decide
      have wL3 : wsNorm ("\">".data) = true := by decide
      have wL4 : wsNorm ("</section>".data) = true := by decide
      have s1 : wsNorm ("<section id=\"".data ++ i.data) = true :=
        wsNorm_append_last w1 hwn
          (last_nonws_of_eq (show ("<section id=\"".data).getLast? = some '"' by decide)
            (by decide))
      have s2 : wsNorm ("<section id=\"".data ++ i.data ++ "\" title=\"".data) = true :=
        wsNorm_append_head s1 wL2
          (head_nonws_of_eq (show ("\" title=\"".data).head? = some '"' from rfl) (by decide))
      have s3 : wsNorm ("<section id=\"".data ++ i.data ++ "\" title=\"".data ++
          t.data) = true :=
        wsNorm_append_last s2 twn
          (last_nonws_of_eq
            (getLast?_append_right (show ("\" title=\"".data).getLast? = some '"' by decide))
            (by decide))
      have s4 : wsNorm ("<section id=\"".data ++ i.data ++ "\" title=\"".data ++
          t.data ++ "\">".data) = true :=
        wsNorm_append_head s3 wL3
          (head_nonws_of_eq (show ("\">".data).head? = some '"' from rfl) (by decide))
      have s5 := wsNorm_append_head s4 hwsubs (serialize_head_nonws subs)
      have s6 := wsNorm_append_head s5 wL4
        (head_nonws_of_eq (show ("</section>".data).head? = some '<' from rfl) (by decide))
      exact wsNorm_append_head s6 hwrest (serialize_head_nonws rest)
/-- Serializing a well-formed sibling list and parsing it back is the
identity. -/
theorem parse_serialize_of_wf {ts : List Section} (hwf : ∀ s ∈ ts, WfSection s) :
    parse_sections (String.mk (serialize_list ts)) = ts := by
  cases ts with
  | nil => rw [serialize_list_nil]; rfl
  | cons s rest =>
    obtain ⟨i, t, subs⟩ := s
    obtain ⟨init, hlast⟩ := serialize_last (Section.mk i t subs :: rest) (by simp)
    obtain ⟨tl, hhead⟩ := serialize_head (i := i) (t := t) subs rest
    have hstrip : pyStrip (serialize_list (Section.mk i t subs :: rest)) =
        serialize_list (Section.mk i t subs :: rest) :=
      pyStrip_eq_self
        (head_nonws_of_eq (by rw [hhead]; rfl) (by decide))
        (last_nonws_of_eq (c := '>') (by rw [hlast]; exact List.getLast?_concat init)
          (by decide))
    have hcollapse : collapseWs (serialize_list (Section.mk i t subs :: rest)) =
        serialize_list (Section.mk i t subs :: rest) :=
      collapse_fix (serialize_wsNorm (sizeOf (Section.mk i t subs :: rest)) _ le_rfl hwf)
    have hscan : scanInput (String.mk (serialize_list (Section.mk i t subs :: rest))) =
        serialize_list (Section.mk i t subs :: rest) := by
      unfold scanInput
      rw [show (String.mk (serialize_list (Section.mk i t subs :: rest))).data =
        serialize_list (Section.mk i t subs :: rest) from rfl, hstrip, hcollapse]
    unfold parse_sections
    rw [hscan]
    exact rt_top _ _ hwf le_rfl

/-! Every tree returned by `parse_sections` is well formed: attribute
values come from the collapsed text, so they are nonempty, quote-free
and whitespace-normalized. -/

theorem matchOpenTag_wsNorm {cs : List Char} {i t : String} {r : List Char}
    (h : matchOpenTag cs = some (i, t, r)) (hcs : wsNorm cs = true) :
    wsNorm i.data = true ∧ wsNorm t.data = true := by
  obtain ⟨w1, w2, _, _, _, _, _, _, _, _, hcs_eq⟩ := matchOpenTag_some h
  constructor
  · have heq : ("<section".data ++ w1 ++ "id=".data ++ ['"']) ++ i.data ++
        ('"' :: (w2 ++ ("title=".data ++ ('"' :: (t.data ++ ('"' :: '>' :: r)))))) = cs := by
      rw [hcs_eq]; simp [List.append_assoc]
    rw [← heq] at hcs
    exact wsNorm_inner hcs
  · have heq : ("<section".data ++ w1 ++ "id=".data ++ ['"'] ++ i.data ++ ['"'] ++ w2 ++
        "title=".data ++ ['"']) ++ t.data ++ ('"' :: '>' :: r) = cs := by
      rw [hcs_eq]; simp [List.append_assoc]
    rw [← heq] at hcs
    exact wsNorm_inner hcs

theorem matchOpenTag_suffix {cs : List Char} {i t : String} {r : List Char}
    (h : matchOpenTag cs = some (i, t, r)) : ∃ p, cs = p ++ r := by
  obtain ⟨w1, w2, _, _, _, _, _, _, _, _, hcs_eq⟩ := matchOpenTag_some h
  refine ⟨"<section".data ++ w1 ++ "id=".data ++ ['"'] ++ i.data ++ ['"'] ++ w2 ++
    "title=".data ++ ['"'] ++ t.data ++ ['"', '>'], ?_⟩
  rw [hcs_eq]; simp [List.append_assoc]

/-- Output well-formedness of the two scanner components. -/
theorem pout (fuel : Nat) :
    (∀ cs s r, parseSectionF fuel cs = some (s, r) → wsNorm cs = true →
      WfSection s ∧ ∃ p, cs = p ++ r) ∧
    (∀ cs ss r, parseBodyF fuel cs = (ss, r) → wsNorm cs = true →
      (∀ s ∈ ss, WfSection s) ∧ ∃ p, cs = p ++ r) := by
  induction fuel with
  | zero =>
    constructor
    · intro cs s r h _
      rw [parseSectionF_zero] at h
      exact absurd h (by simp)
    · intro cs ss r h _
      rw [parseBodyF_zero] at h
      simp only [Prod.mk.injEq] at h
      obtain ⟨h1, h2⟩ := h
      subst h1; subst h2
      exact ⟨by simp, [], rfl⟩
  | succ g ih =>
    obtain ⟨ihS, ihB⟩ := ih
    have hS : ∀ cs s r, parseSectionF (g + 1) cs = some (s, r) → wsNorm cs = true →
        WfSection s ∧ ∃ p, cs = p ++ r := by
      intro cs s r h hw
      cases hm : matchOpenTag cs with
      | none => rw [parseSectionF_none hm] at h; exact absurd h (by simp)
      | some v =>
        obtain ⟨i, t, r0⟩ := v
        rw [parseSectionF_succ_some g hm] at h
        simp only [Option.some_inj, Prod.mk.injEq] at h
        obtain ⟨hs, hr⟩ := h
        obtain ⟨w1, w2, _, _, _, _, hi, hiq, ht, htq, _⟩ := matchOpenTag_some hm
        obtain ⟨hwi, hwt⟩ := matchOpenTag_wsNorm hm hw
        obtain ⟨p0, hp0⟩ := matchOpenTag_suffix hm
        have hwr0 : wsNorm r0 = true := by
          rw [hp0] at hw
          exact (wsNorm_append_elim hw).2
        obtain ⟨hsubs, p1, hp1⟩ :=
          ihB r0 (parseBodyF g r0).1 (parseBodyF g r0).2 rfl hwr0
        subst hs; subst hr
        exact ⟨WfSection.mk hi hiq hwi ht htq hwt hsubs, p0 ++ p1,
          by rw [hp0, List.append_assoc, ← hp1]⟩
    refine ⟨hS, ?_⟩
    intro cs ss r h hw
    cases cs with
    | nil =>
      rw [parseBodyF_nil] at h
      simp only [Prod.mk.injEq] at h
      obtain ⟨h1, h2⟩ := h
      subst h1; subst h2
      exact ⟨by simp, [], rfl⟩
    | cons c cs' =>
      by_cases hcl : isCloseTag (c :: cs')
      · rw [parseBodyF_succ_close g hcl] at h
        simp only [Prod.mk.injEq] at h
        obtain ⟨h1, h2⟩ := h
        subst h1; subst h2
        exact ⟨by simp, (c :: cs').take 10, (List.take_append_drop 10 (c :: cs')).symm⟩
      · have hcl' : isCloseTag (c :: cs') = false := by simpa using hcl
        cases hsec : parseSectionF g (c :: cs') with
        | some v =>
          obtain ⟨sub, rest⟩ := v
          rw [parseBodyF_succ_some g hcl' hsec] at h
          simp only [Prod.mk.injEq] at h
          obtain ⟨h1, h2⟩ := h
          obtain ⟨hwfsub, p0, hp0⟩ := ihS (c :: cs') sub rest hsec hw
          have hwrest : wsNorm rest = true := by
            rw [hp0] at hw
            exact (wsNorm_append_elim hw).2
          obtain ⟨htail, p1, hp1⟩ :=
            ihB rest (parseBodyF g rest).1 (parseBodyF g rest).2 rfl hwrest
          subst h1; subst h2
          refine ⟨?_, p0 ++ p1, by rw [hp0, List.append_assoc, ← hp1]⟩
          intro x hx
          rcases List.mem_cons.mp hx with hx | hx
          · subst hx; exact hwfsub
          · exact htail x hx
        | none =>
          rw [parseBodyF_succ_none g hcl' hsec] at h
          have hwcs' : wsNorm cs' = true := (wsNorm_cons_elim hw).2.1
          obtain ⟨htail, p1, hp1⟩ := ihB cs' ss r h hwcs'
          exact ⟨htail, c :: p1, by rw [List.cons_append, ← hp1]⟩

/-- Everything the top-level loop returns is well formed, provided the
scanned text is whitespace-normalized. -/
theorem pout_top (fuel : Nat) :
    ∀ cs ss, topLoopF fuel cs = ss → wsNorm cs = true → ∀ s ∈ ss, WfSection s := by
  induction fuel with
  | zero =>
    intro cs ss h _
    subst h
    intro s hs
    rw [show topLoopF 0 cs = [] from rfl] at hs
    exact absurd hs (List.not_mem_nil s)
  | succ g ih =>
    intro cs ss h hw
    cases cs with
    | nil =>
      rw [topLoopF_nil] at h
      subst h
      simp
    | cons c cs' =>
      cases hsec : parseSectionF g (c :: cs') with
      | some v =>
        obtain ⟨sec, rest⟩ := v
        rw [topLoopF_cons_some g hsec] at h
        subst h
        obtain ⟨hwfsec, p0, hp0⟩ := (pout g).1 (c :: cs') sec rest hsec hw
        have hwrest : wsNorm rest = true := by
          rw [hp0] at hw
          exact (wsNorm_append_elim hw).2
        intro x hx
        rcases List.mem_cons.mp hx with hx | hx
        · subst hx; exact hwfsec
        · exact ih rest (topLoopF g rest) rfl hwrest x hx
      | none =>
        rw [topLoopF_cons_none g hsec] at h
        have hwcs' : wsNorm cs' = true := (wsNorm_cons_elim hw).2.1
        exact ih cs' ss h hwcs'

/-- Every section tree produced by `parse_sections` is well formed. -/
theorem parse_sections_wf (s : String) : ∀ x ∈ parse_sections s, WfSection x :=
  pout_top (scanInput s).length (scanInput s) (parse_sections s) rfl
    (collapseWs_wsNorm (pyStrip s.data))

/-- Serializing the output of `parse_sections` and re-parsing gives the
same trees back. -/
theorem parse_serialize_parse (s : String) :
    parse_sections (String.mk (serialize_list (parse_sections s))) = parse_sections s :=
  parse_serialize_of_wf (parse_sections_wf s)

/-! Whitespace insensitivity: texts that differ only in the length or
kind of their whitespace runs scan identically. -/

/-- Two character lists that differ only in their whitespace runs: equal
non-whitespace characters in the same order, with each whitespace block
replaced by an arbitrary nonempty whitespace block. -/
inductive WsEq : List Char → List Char → Prop where
  | nil : WsEq [] []
  | cons : ∀ {c : Char} {l1 l2 : List Char}, pyIsSpace c = false → WsEq l1 l2 →
      WsEq (c :: l1) (c :: l2)
  | ws : ∀ {w1 w2 l1 l2 : List Char}, w1 ≠ [] → w2 ≠ [] →
      (∀ c ∈ w1, pyIsSpace c = true) → (∀ c ∈ w2, pyIsSpace c = true) →
      WsEq l1 l2 → WsEq (w1 ++ l1) (w2 ++ l2)

theorem wsEq_append {a1 a2 b1 b2 : List Char} (ha : WsEq a1 a2) (hb : WsEq b1 b2) :
    WsEq (a1 ++ b1) (a2 ++ b2) := by
  induction ha with
  | nil => simpa using hb
  | cons h _ ih => rw [List.cons_append, List.cons_append]; exact WsEq.cons h ih
  | ws h1 h2 h3 h4 _ ih =>
    rw [List.append_assoc, List.append_assoc]
    exact WsEq.ws h1 h2 h3 h4 ih

theorem wsEq_reverse {l1 l2 : List Char} (h : WsEq l1 l2) :
    WsEq l1.reverse l2.reverse := by
  induction h with
  | nil => exact WsEq.nil
  | cons hc _ ih =>
    rw [List.reverse_cons, List.reverse_cons]
    exact wsEq_append ih (WsEq.cons hc WsEq.nil)
  | ws h1 h2 h3 h4 _ ih =>
    rw [List.reverse_append, List.reverse_append]
    refine wsEq_append ih ?_
    have h5 := @WsEq.ws _ _ [] []
      (by simpa using h1) (by simpa using h2)
      (fun c hc => h3 c (List.mem_reverse.mp hc))
      (fun c hc => h4 c (List.mem_reverse.mp hc)) WsEq.nil
    simpa using h5

theorem dropWhile_append_all {w l : List Char} (hw : ∀ c ∈ w, pyIsSpace c = true) :
    (w ++ l).dropWhile pyIsSpace = l.dropWhile pyIsSpace := by
  induction w with
  | nil => rfl
  | cons c w' ih =>
    rw [List.cons_append, List.dropWhile_cons, if_pos (hw c (by simp))]
    exact ih fun x hx => hw x (by simp [hx])

theorem wsEq_dropWhile {l1 l2 : List Char} (h : WsEq l1 l2) :
    WsEq (l1.dropWhile pyIsSpace) (l2.dropWhile pyIsSpace) := by
  induction h with
  | nil => exact WsEq.nil
  | cons hc hl _ =>
    rw [List.dropWhile_cons, List.dropWhile_cons, if_neg (by simp [hc]),
      if_neg (by simp [hc])]
    exact WsEq.cons hc hl
  | ws _ _ h3 h4 _ ih =>
    rw [dropWhile_append_all h3, dropWhile_append_all h4]
    exact ih

theorem wsEq_pyStrip {l1 l2 : List Char} (h : WsEq l1 l2) :
    WsEq (pyStrip l1) (pyStrip l2) :=
  wsEq_reverse (wsEq_dropWhile (wsEq_reverse (wsEq_dropWhile h)))

theorem wsEq_collapseAux {l1 l2 : List Char} (h : WsEq l1 l2) :
    collapseWsAux false l1 = collapseWsAux false l2 ∧
      collapseWsAux true l1 = collapseWsAux true l2 := by
  induction h with
  | nil => exact ⟨rfl, rfl⟩
  | @cons c l1' l2' hc _ ih =>
    have ef : ∀ l : List Char, collapseWsAux false (c :: l) = c :: collapseWsAux false l := by
      intro l
      show (if pyIsSpace c then _ else c :: collapseWsAux false l) = _
      rw [if_neg (by simp [hc])]
    have et : ∀ l : List Char, collapseWsAux true (c :: l) = c :: collapseWsAux false l := by
      intro l
      show (if pyIsSpace c then _ else c :: collapseWsAux false l) = _
      rw [if_neg (by simp [hc])]
    rw [ef, ef, et, et, ih.1]
    exact ⟨rfl, rfl⟩
  | @ws w1 w2 l1' l2' h1 h2 h3 h4 _ ih =>
    have htrue : collapseWsAux true (w1 ++ l1') = collapseWsAux true (w2 ++ l2') := by
      rw [collapseAux_true_skip h3, collapseAux_true_skip h4, ih.2]
    have hfalse : collapseWsAux false (w1 ++ l1') = collapseWsAux false (w2 ++ l2') := by
      cases w1 with
      | nil => exact absurd rfl h1
      | cons c1 w1' =>
        cases w2 with
        | nil => exact absurd rfl h2
        | cons c2 w2' =>
          have e1 : collapseWsAux false ((c1 :: w1') ++ l1') =
              ' ' :: collapseWsAux true (w1' ++ l1') := by
            rw [List.cons_append]
            show (if pyIsSpace c1 then
              (if (false : Bool) then _ else ' ' :: collapseWsAux true (w1' ++ l1'))
              else _) = _
            rw [if_pos (h3 c1 (by simp))]
            rfl
          have e2 : collapseWsAux false ((c2 :: w2') ++ l2') =
              ' ' :: collapseWsAux true (w2' ++ l2') := by
            rw [List.cons_append]
            show (if pyIsSpace c2 then
              (if (false : Bool) then _ else ' ' :: collapseWsAux true (w2' ++ l2'))
              else _) = _
            rw [if_pos (h4 c2 (by simp))]
            rfl
          rw [e1, e2, collapseAux_true_skip (fun x hx => h3 x (by simp [hx])),
            collapseAux_true_skip (fun x hx => h4 x (by simp [hx])), ih.2]
    exact ⟨hfalse, htrue⟩

/-- Texts that differ only in whitespace runs have the same scan input,
hence the same parse. -/
theorem wsEq_parse_sections {s1 s2 : String} (h : WsEq s1.data s2.data) :
    parse_sections s1 = parse_sections s2 := by
  have hscan : scanInput s1 = scanInput s2 :=
    (wsEq_collapseAux (wsEq_pyStrip h)).1
  unfold parse_sections
  rw [hscan]

/-- Attribute values of a tree (recursively) are whitespace-normalized:
no newlines, tabs or other non-space whitespace, and no two adjacent
whitespace characters. -/
inductive AttrsNorm : Section → Prop where
  | mk : ∀ {i t : String} {subs : List Section},
      wsNorm i.data = true → wsNorm t.data = true →
      (∀ s ∈ subs, AttrsNorm s) → AttrsNorm (Section.mk i t subs)

theorem wf_attrsNorm : ∀ n (s : Section), sizeOf s ≤ n → WfSection s → AttrsNorm s := by
  intro n
  induction n using Nat.strong_induction_on with
  | _ n IH =>
    intro s hsz hwf
    obtain ⟨i, t, subs⟩ := s
    cases hwf with
    | mk hi hiq hwn ht htq twn hsubs =>
      refine AttrsNorm.mk hwn twn ?_
      intro x hx
      have h1 : sizeOf x < sizeOf subs := List.sizeOf_lt_of_mem hx
      have h2 := Section.mk.sizeOf_spec i t subs
      exact IH (sizeOf x) (by omega) x le_rfl (hsubs x hx)

/-- Attribute values in parser output are whitespace-normalized. -/
theorem parse_sections_attrsNorm (s : String) :
    ∀ x ∈ parse_sections s, AttrsNorm x := fun x hx =>
  wf_attrsNorm (sizeOf x) x le_rfl (parse_sections_wf s x hx)

/-! The literature-review script: relevance label scoring, per-batch
feedback extraction and aggregation, and the frontier-expansion loop. -/

/-- `str.lower` on the ASCII range, which covers the fixed label set. -/
def pyLower (s : String) : String := String.mk (s.data.map Char.toLower)

/-- The fixed label-to-score dictionary lookup applied to the lowercased
feedback label; the caught missing-key case logs and yields the default
score 1. -/
def feedback_score (label : String) : Nat :=
  if pyLower label = "highly relevant" then 3
  else if pyLower label = "relevant" then 2
  else if pyLower label = "somewhat relevant" then 1
  else if pyLower label = "unsure" then 1
  else if pyLower label = "irrelevant" then 0
  else 1

/-- Python-dict association list: lookup of a key. -/
def dlookup {α : Type} (k : String) : List (String × α) → Option α
  | [] => none
  | p :: rest => if p.1 = k then some p.2 else dlookup k rest

/-- Python-dict association list: setting a key, updating in place when
the key is present and appending otherwise. -/
def dinsert {α : Type} : List (String × α) → String → α → List (String × α)
  | [], k, v => [(k, v)]
  | p :: rest, k, v => if p.1 = k then (k, v) :: rest else p :: dinsert rest k v

/-- The lazy capture of a tag-content regex piece: consume characters
other than a newline until the closing literal appears, returning the
content and the remainder after the closing literal. -/
def grabUntil (close : List Char) : List Char → Option (List Char × List Char)
  | [] => none
  | c :: cs =>
    match expectLit close (c :: cs) with
    | some rest => some ([], rest)
    | none =>
      if c = '\n' then none
      else
        match grabUntil close cs with
        | some (a, b) => some (c :: a, b)
        | none => none

/-- A regex search for the first tag pair in the text: at each position
try to match the opening literal and a lazy content capture up to the
closing literal; advance one character on failure. -/
def findTag (openT closeT : List Char) : List Char → Option (List Char)
  | [] => none
  | c :: cs =>
    match expectLit openT (c :: cs) with
    | some rest =>
      match grabUntil closeT rest with
      | some (content, _) => some content
      | none => findTag openT closeT cs
    | none => findTag openT closeT cs

/-- A regex find-all for the tag pair: like the search, but continuing
after each complete match.  The fuel is the text length; every step
consumes at least one character, so it never runs out. -/
def findAllBlocksF (openT closeT : List Char) : Nat → List Char → List (List Char)
  | 0, _ => []
  | _ + 1, [] => []
  | f + 1, c :: cs =>
    match expectLit openT (c :: cs) with
    | some rest =>
      match grabUntil closeT rest with
      | some (content, after) => content :: findAllBlocksF openT closeT f after
      | none => findAllBlocksF openT closeT f cs
    | none => findAllBlocksF openT closeT f cs

/-- All paper blocks of a response. -/
def findAllBlocks (openT closeT : List Char) (cs : List Char) : List (List Char) :=
  findAllBlocksF openT closeT cs.length cs

/-- One paper block of a feedback response: the first bibcode tag and
the first feedback tag, the latter scored.  `none` when either search
fails, in which case the Python attribute access raises. -/
def blockPair (b : List Char) : Option (String × Nat) :=
  match findTag "<bibcode>".data "</bibcode>".data b,
    findTag "<feedback>".data "</feedback>".data b with
  | some bib, some fb => some (String.mk bib, feedback_score (String.mk fb))
  | _, _ => none

/-- The bibcode-score pairs of the well-tagged paper blocks of one
response, in response order. -/
def raw_pairs (res : String) : List (String × Nat) :=
  (findAllBlocks "<paper>".data "</paper>".data res.data).filterMap blockPair

/-- The bibcodes tagged in one response. -/
def tagged_bibs (res : String) : List String := (raw_pairs res).map Prod.fst

/-- One batch call of the relevance scorer: extract all paper blocks of
the response, fail when a block lacks its tags (the uncaught attribute
error) or when no feedback was parsed (the raised value error), and
otherwise build the feedback dictionary. -/
def parse_feedbacks (res : String) : Except Unit (List (String × Nat)) :=
  match (findAllBlocks "<paper>".data "</paper>".data res.data).mapM blockPair with
  | none => Except.error ()
  | some pairs =>
    if pairs.length = 0 then Except.error ()
    else Except.ok (pairs.foldl (fun m p => dinsert m p.1 p.2) [])

/-- `get_title_relevance`, with the per-batch model responses abstracted
as the list of response strings, one per fixed-size batch: each batch is
parsed and its feedback dictionary merged into the accumulator; a batch
failure aborts the whole call. -/
def get_title_relevance (responses : List String) : Except Unit (List (String × Nat)) :=
  responses.foldlM (fun acc r =>
    Except.map (fun pairs => pairs.foldl (fun m p => dinsert m p.1 p.2) acc)
      (parse_feedbacks r)) []

/-- `get_abstract_relevance` aggregates batches with the identical
extraction and merge code. -/
def get_abstract_relevance : List String → Except Unit (List (String × Nat)) :=
  get_title_relevance

/-- A paper record as normalized from a search response. -/
structure Paper where
  bibcode : String
  title : String
  abstract : String

/-- A value stored in a query-state dictionary.  The Python rates are
floating point; they are embedded as rationals, which the claims about
the loop never inspect. -/
inductive StatVal where
  | str (s : String)
  | bool (b : Bool)
  | rat (q : ℚ)

/-- The outcome-flag dictionary of one query. -/
abbrev QStat : Type := List (String × StatVal)

/-- The mutable accumulator of the frontier-expansion loop. -/
structure LoopState where
  queries : List String
  queryStats : List (String × QStat)
  allPapers : List (String × Paper)

/-- The external calls of one loop iteration, abstracted as functions
returning a result or raising: the search request and the two
aggregated relevance assessments on the given candidate papers. -/
structure Oracle where
  searchAds : String → Except Unit (List Paper)
  titleRel : List Paper → Except Unit (List (String × Nat))
  absRel : List Paper → Except Unit (List (String × Nat))

/-- Record a flag in the state dictionary of a query. -/
def setFlag (qs : List (String × QStat)) (q key : String) (v : StatVal) :
    List (String × QStat) :=
  match dlookup q qs with
  | some d => dinsert qs q (dinsert d key v)
  | none => qs

/-- The threshold filter on a relevance dictionary: the bibcode is
present with at least the given score. -/
def scoreAtLeast (rel : List (String × Nat)) (k : String) (n : Nat) : Bool :=
  match dlookup k rel with
  | some v => decide (n ≤ v)
  | none => false

/-- One iteration of the frontier-expansion loop: pop the next query and
run it through the skip check, the search call, the duplicate filter,
the title and abstract relevance stages, the citation and reference
query discovery, and the paper accumulation, with the branch structure
and recorded flags of the script body. -/
def step_query (o : Oracle) (st : LoopState) : LoopState :=
  match st.queries with
  | [] => st
  | query :: rest =>
    if (dlookup query st.queryStats).isSome then
      { st with queries := rest }
    else
      let qs0 := dinsert st.queryStats query ([] : QStat)
      match o.searchAds query with
      | .error _ =>
        { queries := rest,
          queryStats := setFlag qs0 query "error" (.str "bad ads response"),
          allPapers := st.allPapers }
      | .ok candidates =>
        if candidates.length = 0 then
          { queries := rest, queryStats := qs0, allPapers := st.allPapers }
        else
          let cands1 := candidates.filter fun p => (dlookup p.bibcode st.allPapers).isNone
          if cands1.length = 0 then
            { queries := rest,
              queryStats := setFlag qs0 query "no_new_papers" (.bool true),
              allPapers := st.allPapers }
          else
            match o.titleRel cands1 with
            | .error _ =>
              { queries := rest,
                queryStats := setFlag qs0 query "error"
                  (.str "bad title relevance assessment"),
                allPapers := st.allPapers }
            | .ok trel =>
              if trel.length = 0 then
                { queries := rest,
                  queryStats := setFlag qs0 query "error"
                    (.str "empty title relevance feedback"),
                  allPapers := st.allPapers }
              else
                let nRel := (trel.filter fun p => decide (2 ≤ p.2)).length
                let nIrr := (trel.filter fun p => decide (p.2 = 0)).length
                let qs2 := setFlag (setFlag qs0 query "relevant_rate"
                    (.rat ((nRel : ℚ) / (trel.length : ℚ)))) query "irrelevant_rate"
                  (.rat ((nIrr : ℚ) / (trel.length : ℚ)))
                let cands2 := cands1.filter fun p => scoreAtLeast trel p.bibcode 3
                if cands2.length = 0 then
                  { queries := rest,
                    queryStats := setFlag qs2 query "no_relevant_title" (.bool true),
                    allPapers := st.allPapers }
                else
                  match o.absRel cands2 with
                  | .error _ =>
                    { queries := rest,
                      queryStats := setFlag qs2 query "error"
                        (.str "bad abstract relevance assessment"),
                      allPapers := st.allPapers }
                  | .ok arel =>
                    if arel.length = 0 then
                      { queries := rest,
                        queryStats := setFlag qs2 query "error"
                          (.str "empty abstract relevance feedback"),
                        allPapers := st.allPapers }
                    else
                      let cands3 := cands2.filter fun p => scoreAtLeast arel p.bibcode 3
                      if cands3.length = 0 then
                        { queries := rest,
                          queryStats := setFlag qs2 query "no_relevant_abstract" (.bool true),
                          allPapers := st.allPapers }
                      else
                        let nHigh := (arel.filter fun p => decide (p.2 = 3)).length
                        let qs3 := setFlag qs2 query "abstract_highly_relevant_rate"
                          (.rat ((nHigh : ℚ) / (arel.length : ℚ)))
                        let hi := cands3.filter fun p => dlookup p.bibcode arel == some 3
                        let newQs := (hi.map fun p =>
                          ["citations(bibcode:" ++ p.bibcode ++ ")",
                           "references(bibcode:" ++ p.bibcode ++ ")"]).flatten
                        { queries := rest ++ newQs,
                          queryStats := qs3,
                          allPapers := cands3.foldl
                            (fun m p => dinsert m p.bibcode p) st.allPapers }

/-! Association-list facts used for the aggregation and loop claims. -/

theorem dlookup_cons {α : Type} (k : String) (p : String × α) (l : List (String × α)) :
    dlookup k (p :: l) = if p.1 = k then some p.2 else dlookup k l := rfl

theorem dinsert_cons {α : Type} (p : String × α) (rest : List (String × α))
    (k : String) (v : α) :
    dinsert (p :: rest) k v =
      if p.1 = k then (k, v) :: rest else p :: dinsert rest k v := rfl

theorem dlookup_dinsert {α : Type} (m : List (String × α)) (k k' : String) (v : α) :
    dlookup k' (dinsert m k v) = if k' = k then some v else dlookup k' m := by
  induction m with
  | nil =>
    show dlookup k' [(k, v)] = _
    rw [dlookup_cons]
    by_cases hk : k' = k
    · subst hk; simp
    · simp [Ne.symm hk, hk, dlookup]
  | cons p rest ih =>
    rw [dinsert_cons]
    by_cases hp : p.1 = k
    · rw [if_pos hp, dlookup_cons, dlookup_cons]
      by_cases hk : k' = k
      · subst hk; simp
      · rw [if_neg (by simpa using Ne.symm hk), if_neg hk,
          if_neg (by rw [hp]; exact fun h => hk h.symm)]
    · rw [if_neg hp, dlookup_cons, dlookup_cons]
      by_cases hpk' : p.1 = k'
      · rw [if_pos hpk', if_pos hpk', if_neg (fun h => hp (hpk'.trans h))]
      · rw [if_neg hpk', if_neg hpk', ih]

/-- The last value assigned to a key by a pair list processed in order. -/
def lastLookup (k : String) : List (String × Nat) → Option Nat
  | [] => none
  | p :: rest =>
    match lastLookup k rest with
    | some v => some v
    | none => if p.1 = k then some p.2 else none

theorem dlookup_foldl_dinsert (k : String) :
    ∀ (pairs : List (String × Nat)) (acc : List (String × Nat)),
      dlookup k (pairs.foldl (fun m p => dinsert m p.1 p.2) acc) =
        match lastLookup k pairs with
        | some v => some v
        | none => dlookup k acc := by
  intro pairs
  induction pairs with
  | nil => intro acc; rfl
  | cons p rest ih =>
    intro acc
    rw [List.foldl_cons, ih, lastLookup]
    cases hr : lastLookup k rest with
    | some v => rfl
    | none =>
      rw [dlookup_dinsert]
      by_cases hp : p.1 = k
      · rw [if_pos hp.symm, if_pos hp]
      · rw [if_neg (fun h => hp h.symm), if_neg hp]

theorem lastLookup_append (k : String) (xs ys : List (String × Nat)) :
    lastLookup k (xs ++ ys) =
      match lastLookup k ys with
      | some v => some v
      | none => lastLookup k xs := by
  induction xs with
  | nil =>
    rw [List.nil_append]
    cases hys : lastLookup k ys with
    | some v => rfl
    | none => rfl
  | cons p xs ih =>
    rw [List.cons_append, lastLookup, ih, lastLookup]
    cases hys : lastLookup k ys with
    | some v => rfl
    | none => rfl

theorem lastLookup_eq_none {k : String} :
    ∀ {l : List (String × Nat)}, (∀ p ∈ l, p.1 ≠ k) → lastLookup k l = none := by
  intro l
  induction l with
  | nil => intro _; rfl
  | cons p rest ih =>
    intro h
    rw [lastLookup, ih fun x hx => h x (by simp [hx])]
    rw [if_neg (h p (by simp))]

theorem lastLookup_mem {k : String} :
    ∀ {l : List (String × Nat)} {v : Nat}, lastLookup k l = some v → k ∈ l.map Prod.fst := by
  intro l
  induction l with
  | nil => intro v h; exact absurd h (by simp [lastLookup])
  | cons p rest ih =>
    intro v h
    rw [lastLookup] at h
    cases hr : lastLookup k rest with
    | some w =>
      rw [List.map_cons]
      exact List.mem_cons_of_mem _ (ih hr)
    | none =>
      rw [hr] at h
      by_cases hp : p.1 = k
      · rw [List.map_cons]
        simp [hp]
      · rw [if_neg hp] at h
        exact absurd h (by simp)

theorem filterMap_of_mapM {α β : Type} (f : α → Option β) :
    ∀ {l : List α} {l' : List β}, l.mapM f = some l' → l.filterMap f = l' := by
  intro l
  induction l with
  | nil =>
    intro l' h
    simp only [List.mapM_nil, pure, Option.some_inj] at h
    simp [← h]
  | cons a l ih =>
    intro l' h
    rw [List.mapM_cons] at h
    cases hfa : f a with
    | none => rw [hfa] at h; simp at h
    | some b =>
      rw [hfa] at h
      cases hml : l.mapM f with
      | none => rw [hml] at h; simp at h
      | some bs =>
        rw [hml] at h
        simp only [Option.bind_eq_bind, Option.some_bind, pure, Option.some_inj] at h
        rw [List.filterMap_cons_some hfa, ih hml, h]

theorem perm_flatten {α : Type} {L1 L2 : List (List α)} (h : L1.Perm L2) :
    L1.flatten.Perm L2.flatten := by
  induction h with
  | nil => exact List.Perm.refl _
  | cons x _ ih =>
    rw [List.flatten_cons, List.flatten_cons]
    exact ih.append_left x
  | swap x y l =>
    rw [List.flatten_cons, List.flatten_cons, List.flatten_cons, List.flatten_cons,
      ← List.append_assoc, ← List.append_assoc]
    exact (List.perm_append_comm.append_right l.flatten)
  | trans _ _ ih1 ih2 => exact ih1.trans ih2

theorem keys_dinsert {α : Type} (k : String) (v : α) :
    ∀ m : List (String × α),
      (dinsert m k v).map Prod.fst =
        if k ∈ m.map Prod.fst then m.map Prod.fst else m.map Prod.fst ++ [k] := by
  intro m
  induction m with
  | nil => simp [dinsert]
  | cons p rest ih =>
    rw [dinsert_cons]
    by_cases hp : p.1 = k
    · rw [if_pos hp]
      simp [hp]
    · rw [if_neg hp, List.map_cons, List.map_cons, ih]
      by_cases hmem : k ∈ rest.map Prod.fst
      · rw [if_pos hmem, if_pos (by simp [hmem])]
      · rw [if_neg hmem,
          if_neg (by
            intro hK
            rcases List.mem_cons.mp hK with h | h
            · exact hp h.symm
            · exact hmem h),
          List.cons_append]

theorem keys_dinsert_nodup {α : Type} {m : List (String × α)}
    (h : (m.map Prod.fst).Nodup) (k : String) (v : α) :
    ((dinsert m k v).map Prod.fst).Nodup := by
  rw [keys_dinsert]
  by_cases hmem : k ∈ m.map Prod.fst
  · rw [if_pos hmem]; exact h
  · rw [if_neg hmem]
    simp [List.nodup_append, h, hmem]

theorem keys_foldl_dinsert_nodup :
    ∀ (pairs : List (String × Nat)) {acc : List (String × Nat)},
      (acc.map Prod.fst).Nodup →
      ((pairs.foldl (fun m p => dinsert m p.1 p.2) acc).map Prod.fst).Nodup := by
  intro pairs
  induction pairs with
  | nil => intro acc h; exact h
  | cons p rest ih =>
    intro acc h
    rw [List.foldl_cons]
    exact ih (keys_dinsert_nodup h p.1 p.2)

theorem lastLookup_eq_dlookup_of_nodup (k : String) :
    ∀ {l : List (String × Nat)}, (l.map Prod.fst).Nodup → lastLookup k l = dlookup k l := by
  intro l
  induction l with
  | nil => intro _; rfl
  | cons p rest ih =>
    intro h
    rw [List.map_cons, List.nodup_cons] at h
    rw [lastLookup, dlookup_cons]
    cases hr : lastLookup k rest with
    | some v =>
      have hk : k ∈ rest.map Prod.fst := lastLookup_mem hr
      have hne : p.1 ≠ k := fun he => h.1 (by rw [he]; exact hk)
      have hd : dlookup k rest = some v := by rw [← ih h.2]; exact hr
      rw [hd]
      simp [hne]
    | none =>
      rw [← ih h.2, hr]

theorem dlookup_perm_of_nodup (k : String) :
    ∀ {l1 l2 : List (String × Nat)}, l1.Perm l2 → (l1.map Prod.fst).Nodup →
      dlookup k l1 = dlookup k l2 := by
  intro l1 l2 hperm
  induction hperm with
  | nil => intro _; rfl
  | cons x _ ih =>
    intro h
    rw [List.map_cons, List.nodup_cons] at h
    rw [dlookup_cons, dlookup_cons, ih h.2]
  | swap x y l =>
    intro h
    simp only [List.map_cons, List.nodup_cons, List.mem_cons] at h
    rw [dlookup_cons, dlookup_cons, dlookup_cons, dlookup_cons]
    by_cases hy : y.1 = k
    · rw [if_pos hy, if_neg (by intro hx; exact h.1 (Or.inl (hy.trans hx.symm)))]
      rw [if_pos hy]
    · rw [if_neg hy, if_neg hy]
  | trans p1 _ ih1 ih2 =>
    intro h
    rw [ih1 h]
    exact ih2 (((p1.map Prod.fst).nodup_iff).mp h)

theorem parse_feedbacks_parts {res : String} {d : List (String × Nat)}
    (h : parse_feedbacks res = Except.ok d) :
    d = (raw_pairs res).foldl (fun m p => dinsert m p.1 p.2) [] := by
  unfold parse_feedbacks at h
  cases hm : (findAllBlocks "<paper>".data "</paper>".data res.data).mapM blockPair with
  | none =>
    rw [hm] at h
    have h' : (Except.error () : Except Unit (List (String × Nat))) = Except.ok d := h
    exact absurd h' (by simp)
  | some pairs =>
    rw [hm] at h
    have h' : (if pairs.length = 0 then (Except.error () : Except Unit (List (String × Nat)))
        else Except.ok (pairs.foldl (fun m p => dinsert m p.1 p.2) [])) = Except.ok d := h
    by_cases hlen : pairs.length = 0
    · rw [if_pos hlen] at h'; exact absurd h' (by simp)
    · rw [if_neg hlen] at h'
      simp only [Except.ok.injEq] at h'
      rw [← h']
      unfold raw_pairs
      rw [filterMap_of_mapM _ hm]

theorem parse_feedbacks_lookup {res : String} {d : List (String × Nat)}
    (h : parse_feedbacks res = Except.ok d) (k : String) :
    dlookup k d = lastLookup k (raw_pairs res) := by
  rw [parse_feedbacks_parts h, dlookup_foldl_dinsert]
  cases hr : lastLookup k (raw_pairs res) with
  | some v => rfl
  | none => rfl

theorem parse_feedbacks_nodup {res : String} {d : List (String × Nat)}
    (h : parse_feedbacks res = Except.ok d) : (d.map Prod.fst).Nodup := by
  rw [parse_feedbacks_parts h]
  exact keys_foldl_dinsert_nodup _ (by simp)

theorem aggregate_lookup :
    ∀ (rs : List String) (acc m : List (String × Nat)),
      rs.foldlM (fun acc r =>
        Except.map (fun pairs => pairs.foldl (fun m p => dinsert m p.1 p.2) acc)
          (parse_feedbacks r)) acc = Except.ok m →
      ∀ k, dlookup k m =
        match lastLookup k ((rs.map raw_pairs).flatten) with
        | some v => some v
        | none => dlookup k acc := by
  intro rs
  induction rs with
  | nil =>
    intro acc m h k
    rw [List.foldlM_nil] at h
    simp only [pure, Except.pure, Except.ok.injEq] at h
    subst h
    rfl
  | cons r rest ih =>
    intro acc m h k
    rw [List.foldlM_cons] at h
    cases hp : parse_feedbacks r with
    | error e =>
      rw [hp] at h
      have h' : (Except.error e : Except Unit (List (String × Nat))) = Except.ok m := h
      exact absurd h' (by simp)
    | ok d =>
      rw [hp] at h
      have hstep : (Except.map
          (fun pairs => pairs.foldl (fun m p => dinsert m p.1 p.2) acc)
          (Except.ok d) : Except Unit (List (String × Nat))) =
          Except.ok (d.foldl (fun m p => dinsert m p.1 p.2) acc) := rfl
      rw [hstep] at h
      have hbind : ∀ (x : List (String × Nat))
          (f : List (String × Nat) → Except Unit (List (String × Nat))),
          (Except.ok x >>= f) = f x := fun x f => rfl
      rw [hbind] at h
      have hih := ih _ _ h k
      have hacc : dlookup k (d.foldl (fun m p => dinsert m p.1 p.2) acc) =
          match lastLookup k (raw_pairs r) with
          | some v => some v
          | none => dlookup k acc := by
        rw [dlookup_foldl_dinsert]
        have hlld : lastLookup k d = lastLookup k (raw_pairs r) := by
          rw [lastLookup_eq_dlookup_of_nodup k (parse_feedbacks_nodup hp),
            parse_feedbacks_lookup hp]
        rw [hlld]
      rw [List.map_cons, List.flatten_cons, lastLookup_append]
      rw [hih, hacc]
      cases h1 : lastLookup k ((rest.map raw_pairs).flatten) with
      | some v => rfl
      | none =>
        cases h2 : lastLookup k (raw_pairs r) with
        | some v => rfl
        | none => rfl

/-! The outline builders of the summarization script. -/

/-- The record returned by `make_outline` and `merge_outlines`. -/
structure OutlineOut where
  topic : String
  text : String
  outline : Option (List Section)

/-- The tail of `make_outline` on the model response: parse the
response into sections.  The surrounding exception handler would store
none, but `parse_sections` raises no exception on any response string,
so the outline field is always the parse result. -/
def make_outline_result (topic res : String) : OutlineOut :=
  { topic := topic, text := res, outline := some (parse_sections res) }

/-- The tail of `merge_outlines` on the model response, identical to the
one of `make_outline`. -/
def merge_outlines_result (topic res : String) : OutlineOut :=
  { topic := topic, text := res, outline := some (parse_sections res) }

/-! The claims. -/

/-- C1 counterexample: a response that cannot be parsed into any section
still yields a non-null outline field, namely the empty list, while the
text field preserves the raw response. -/
theorem c1_counterexample :
    parse_sections "no sections here" = [] ∧
    (merge_outlines_result "topic" "no sections here").outline ≠ none ∧
    (merge_outlines_result "topic" "no sections here").text = "no sections here" :=
  ⟨rfl, by simp [merge_outlines_result], rfl⟩

/-- C1 (amended): when the response cannot be parsed into any section,
the outline field of the record returned by `merge_outlines` and
`make_outline` is the empty list, not null, and the text field holds the
raw response string; null would require `parse_sections` itself to
raise, which it does not. -/
theorem c1_unparseable_outline (topic res : String) (h : parse_sections res = []) :
    (merge_outlines_result topic res).outline = some [] ∧
    (merge_outlines_result topic res).text = res ∧
    (make_outline_result topic res).outline = some [] ∧
    (make_outline_result topic res).text = res := by
  unfold merge_outlines_result make_outline_result
  simp [h]

theorem c1_unparseable_outline_witness :
    parse_sections "just prose, no tags" = [] ∧
    ((merge_outlines_result "t" "just prose, no tags").outline = some [] ∧
     (merge_outlines_result "t" "just prose, no tags").text = "just prose, no tags" ∧
     (make_outline_result "t" "just prose, no tags").outline = some [] ∧
     (make_outline_result "t" "just prose, no tags").text = "just prose, no tags") :=
  ⟨rfl, c1_unparseable_outline "t" "just prose, no tags" rfl⟩

theorem mem_filter_chain_isNone {papers : List (String × Paper)} {l : List Paper}
    {f2 f3 : Paper → Bool} {x : Paper}
    (hx : x ∈ ((l.filter fun p => (dlookup p.bibcode papers).isNone).filter f2).filter f3) :
    (dlookup x.bibcode papers).isNone = true :=
  (List.mem_filter.mp (List.mem_of_mem_filter (List.mem_of_mem_filter hx))).2

theorem dlookup_foldl_paper_preserve (k : String) :
    ∀ (l : List Paper) (m0 : List (String × Paper)), (∀ x ∈ l, x.bibcode ≠ k) →
      dlookup k (l.foldl (fun m p => dinsert m p.bibcode p) m0) = dlookup k m0 := by
  intro l
  induction l with
  | nil => intro m0 _; rfl
  | cons p l ih =>
    intro m0 h
    rw [List.foldl_cons, ih _ fun x hx => h x (by simp [hx]), dlookup_dinsert,
      if_neg fun he => h p (by simp) he.symm]

/-- C6: when the search call of a query raises, the query state is
marked with a reason string under the error key, no paper is added to
the accumulated paper set, and the loop moves on to the next query. -/
theorem c6_search_error (o : Oracle) (st : LoopState) (q : String) (rest : List String)
    (e : Unit) (hq : st.queries = q :: rest) (hnew : dlookup q st.queryStats = none)
    (herr : o.searchAds q = Except.error e) :
    (step_query o st).allPapers = st.allPapers ∧
    (step_query o st).queries = rest ∧
    ∃ d, dlookup q (step_query o st).queryStats = some d ∧
      dlookup "error" d = some (StatVal.str "bad ads response") := by
  obtain ⟨qs, stats, papers⟩ := st
  have hq' : qs = q :: rest := hq
  subst hq'
  have hnew' : dlookup q stats = none := hnew
  have hstep : step_query o ⟨q :: rest, stats, papers⟩ =
      { queries := rest,
        queryStats := setFlag (dinsert stats q ([] : QStat)) q "error"
          (StatVal.str "bad ads response"),
        allPapers := papers } := by
    unfold step_query
    simp only [hnew', Option.isSome_none, Bool.false_eq_true, if_false, herr]
  rw [hstep]
  have h0 : dlookup q (dinsert stats q ([] : QStat)) = some [] := by
    rw [dlookup_dinsert]
    simp
  refine ⟨rfl, rfl, dinsert ([] : QStat) "error" (StatVal.str "bad ads response"), ?_, rfl⟩
  show dlookup q (setFlag (dinsert stats q ([] : QStat)) q "error"
    (StatVal.str "bad ads response")) = _
  unfold setFlag
  rw [h0]
  rw [dlookup_dinsert]
  simp

/-- An oracle whose external calls all raise, for evaluating the loop
step on concrete states. -/
def adsDown : Oracle :=
  Oracle.mk (fun _ => Except.error ()) (fun _ => Except.error ()) (fun _ => Except.error ())

theorem c6_search_error_witness :
    (LoopState.mk ["q"] [] []).queries = "q" :: [] ∧
    dlookup "q" (LoopState.mk ["q"] [] []).queryStats = none ∧
    adsDown.searchAds "q" = Except.error () ∧
    ((step_query adsDown (LoopState.mk ["q"] [] [])).allPapers =
        (LoopState.mk ["q"] [] []).allPapers ∧
      (step_query adsDown (LoopState.mk ["q"] [] [])).queries = [] ∧
      ∃ d, dlookup "q" (step_query adsDown (LoopState.mk ["q"] [] [])).queryStats = some d ∧
        dlookup "error" d = some (StatVal.str "bad ads response")) :=
  ⟨rfl, rfl, rfl,
    c6_search_error adsDown (LoopState.mk ["q"] [] []) "q" [] () rfl rfl rfl⟩

/-- C7: one loop iteration never deletes or replaces an accumulated
paper: every bibcode already mapped keeps exactly its record, and new
entries are only added for bibcodes not already present. -/
theorem c7_papers_monotone (o : Oracle) (st : LoopState) (k : String) (p : Paper)
    (h : dlookup k st.allPapers = some p) :
    dlookup k (step_query o st).allPapers = some p := by
  obtain ⟨qs, stats, papers⟩ := st
  have h' : dlookup k papers = some p := h
  cases qs with
  | nil => exact h'
  | cons query rest =>
    unfold step_query
    simp only []
    split
    · exact h'
    · split
      · exact h'
      · split
        · exact h'
        · split
          · exact h'
          · split
            · exact h'
            · split
              · exact h'
              · split
                · exact h'
                · split
                  · exact h'
                  · split
                    · exact h'
                    · split
                      · exact h'
                      · show dlookup k
                          (List.foldl (fun m p => dinsert m p.bibcode p) papers _) = some p
                        rw [dlookup_foldl_paper_preserve]
                        · exact h'
                        · intro x hx
                          have hx2 := mem_filter_chain_isNone hx
                          intro he
                          rw [he, h'] at hx2
                          simp at hx2

theorem c7_papers_monotone_witness :
    dlookup "B" (LoopState.mk ["q"] [] [("B", Paper.mk "B" "t" "a")]).allPapers =
      some (Paper.mk "B" "t" "a") ∧
    dlookup "B"
        (step_query adsDown
          (LoopState.mk ["q"] [] [("B", Paper.mk "B" "t" "a")])).allPapers =
      some (Paper.mk "B" "t" "a") :=
  ⟨rfl,
    c7_papers_monotone adsDown (LoopState.mk ["q"] [] [("B", Paper.mk "B" "t" "a")])
      "B" (Paper.mk "B" "t" "a") rfl⟩

/-- C8: a query that already has an entry in the query-state map is
skipped: it is popped from the queue, its state entry and the paper set
are left untouched, and nothing else is done. -/
theorem c8_processed_skip (o : Oracle) (st : LoopState) (q : String) (rest : List String)
    (hq : st.queries = q :: rest) (hdone : (dlookup q st.queryStats).isSome = true) :
    step_query o st =
      { queries := rest, queryStats := st.queryStats, allPapers := st.allPapers } := by
  obtain ⟨qs, stats, papers⟩ := st
  have hq' : qs = q :: rest := hq
  subst hq'
  have hdone' : (dlookup q stats).isSome = true := hdone
  unfold step_query
  simp only [hdone', if_true]

theorem c8_processed_skip_witness :
    (LoopState.mk ["q"] [("q", [])] []).queries = "q" :: [] ∧
    (dlookup "q" (LoopState.mk ["q"] [("q", [])] []).queryStats).isSome = true ∧
    step_query adsDown (LoopState.mk ["q"] [("q", [])] []) =
      { queries := [], queryStats := (LoopState.mk ["q"] [("q", [])] []).queryStats,
        allPapers := (LoopState.mk ["q"] [("q", [])] []).allPapers } :=
  ⟨rfl, rfl,
    c8_processed_skip adsDown (LoopState.mk ["q"] [("q", [])] []) "q" [] rfl rfl⟩

/-- C2: every serialized well-formed nested tag input parses back to
exactly the tree it serializes, preserving nesting depth and sibling
order; in particular the two-level example input parses to one root node
with id a, one child with id a-1 and no grandchildren. -/
theorem c2_parse_exact :
    (∀ ts : List Section, (∀ s ∈ ts, WfSection s) →
      parse_sections (String.mk (serialize_list ts)) = ts) ∧
    parse_sections
        "<section id=\"a\" title=\"Intro\"><section id=\"a-1\" title=\"Background\"></section></section>" =
      [Section.mk "a" "Intro" [Section.mk "a-1" "Background" []]] :=
  ⟨fun _ hwf => parse_serialize_of_wf hwf, rfl⟩

theorem c2_parse_exact_witness :
    (∀ s ∈ [Section.mk "x" "A B" [Section.mk "y" "C" []]], WfSection s) ∧
    parse_sections
        (String.mk (serialize_list [Section.mk "x" "A B" [Section.mk "y" "C" []]])) =
      [Section.mk "x" "A B" [Section.mk "y" "C" []]] := by
  have w1 : WfSection (Section.mk "y" "C" []) :=
    WfSection.mk (by decide) (by decide) (by decide) (by decide) (by decide) (by decide)
      (fun s hs => absurd hs (List.not_mem_nil s))
  have w2 : WfSection (Section.mk "x" "A B" [Section.mk "y" "C" []]) :=
    WfSection.mk (by decide) (by decide) (by decide) (by decide) (by decide) (by decide)
      (fun s hs => (List.mem_singleton.mp hs).symm ▸ w1)
  have hwf : ∀ s ∈ [Section.mk "x" "A B" [Section.mk "y" "C" []]], WfSection s :=
    fun s hs => (List.mem_singleton.mp hs).symm ▸ w2
  exact ⟨hwf, c2_parse_exact.1 _ hwf⟩

/-- C3: the scan of `parse_sections` terminates on every input: any fuel
at least the length of the scanned text computes the same result, which
is the value of `parse_sections`; a successful section parse strictly
advances the scan position; and an input with an unterminated opening
tag yields a best-effort partial tree. -/
theorem c3_scan_terminates :
    (∀ (s : String) (f : Nat), (scanInput s).length ≤ f →
      topLoopF f (scanInput s) = parse_sections s) ∧
    (∀ (f : Nat) (cs : List Char) (sec : Section) (rest : List Char),
      parseSectionF f cs = some (sec, rest) → rest.length < cs.length) ∧
    parse_sections "<section id=\"a\" title=\"T\"><section id=\"b\"" =
      [Section.mk "a" "T" []] :=
  ⟨topLoopF_eq_parse_sections,
   fun f cs sec rest h => (parse_len f).1 cs sec rest h, rfl⟩

theorem c3_scan_terminates_witness :
    ((scanInput "<section id=\"a\" title=\"T\"> stray").length ≤ 99 ∧
      topLoopF 99 (scanInput "<section id=\"a\" title=\"T\"> stray") =
        parse_sections "<section id=\"a\" title=\"T\"> stray") ∧
    (parseSectionF 40 (scanInput "<section id=\"a\" title=\"T\"></section>") =
        some (Section.mk "a" "T" [], []) ∧
      ([] : List Char).length < (scanInput "<section id=\"a\" title=\"T\"></section>").length) :=
  ⟨⟨by decide, c3_scan_terminates.1 "<section id=\"a\" title=\"T\"> stray" 99 (by decide)⟩,
   ⟨rfl, c3_scan_terminates.2.1 40 (scanInput "<section id=\"a\" title=\"T\"></section>")
      (Section.mk "a" "T" []) [] rfl⟩⟩

/-- C4: serializing any tree produced by `parse_sections` back to tag
markup and re-parsing yields the identical tree: same ids, same titles,
same child order. -/
theorem c4_roundtrip (s : String) :
    parse_sections (String.mk (serialize_list (parse_sections s))) = parse_sections s :=
  parse_serialize_parse s

/-- C5: the relevance-label lookup is total: each of the five fixed
labels maps case-insensitively to its fixed score, and every label whose
lowercasing is outside the fixed set maps to the default score 1. -/
theorem c5_feedback_score_total :
    (∀ s : String, pyLower s = "highly relevant" → feedback_score s = 3) ∧
    (∀ s : String, pyLower s = "relevant" → feedback_score s = 2) ∧
    (∀ s : String, pyLower s = "somewhat relevant" → feedback_score s = 1) ∧
    (∀ s : String, pyLower s = "unsure" → feedback_score s = 1) ∧
    (∀ s : String, pyLower s = "irrelevant" → feedback_score s = 0) ∧
    (∀ s : String,
      pyLower s ∉ (["highly relevant", "relevant", "somewhat relevant", "unsure",
        "irrelevant"] : List String) → feedback_score s = 1) := by
  refine ⟨?_, ?_, ?_, ?_, ?_, ?_⟩ <;> intro s h <;> unfold feedback_score
  · rw [h]; decide
  · rw [h]; decide
  · rw [h]; decide
  · rw [h]; decide
  · rw [h]; decide
  · simp only [List.mem_cons, List.mem_singleton, not_or] at h
    obtain ⟨h1, h2, h3, h4, h5, -⟩ := h
    rw [if_neg h1, if_neg h2, if_neg h3, if_neg h4, if_neg h5]

theorem flatten_map_fst (L : List (List (String × Nat))) :
    L.flatten.map Prod.fst = (L.map (List.map Prod.fst)).flatten := by
  induction L with
  | nil => rfl
  | cons l L ih => rw [List.flatten_cons, List.map_append, ih, List.map_cons,
      List.flatten_cons]

theorem option_match_id (o : Option Nat) :
    (match o with
     | some v => some v
     | none => (none : Option Nat)) = o := by
  cases o with
  | some v => rfl
  | none => rfl

/-- C9: batch relevance aggregation is keyed by the bibcode tags of the
responses: with the tagged bibcodes across batch responses distinct, the
aggregated mapping is the same function of bibcodes for any batch order,
a bibcode tagged in no response is absent from the aggregate, and the
abstract-relevance aggregation is the identical computation. -/
theorem c9_batch_aggregation :
    (∀ (rs rs' : List String) (m m' : List (String × Nat)),
      rs.Perm rs' →
      get_title_relevance rs = Except.ok m →
      get_title_relevance rs' = Except.ok m' →
      ((rs.map tagged_bibs).flatten).Nodup →
      ∀ k, dlookup k m = dlookup k m') ∧
    (∀ (rs : List String) (m : List (String × Nat)) (k : String),
      get_title_relevance rs = Except.ok m →
      (∀ r ∈ rs, k ∉ tagged_bibs r) →
      dlookup k m = none) ∧
    get_abstract_relevance = get_title_relevance := by
  refine ⟨?_, ?_, rfl⟩
  · intro rs rs' m m' hperm hok hok' hnd k
    have h1 := aggregate_lookup rs [] m hok k
    have h2 := aggregate_lookup rs' [] m' hok' k
    rw [show dlookup k ([] : List (String × Nat)) = none from rfl] at h1 h2
    rw [option_match_id] at h1 h2
    rw [h1, h2]
    have hpermJ : ((rs.map raw_pairs).flatten).Perm ((rs'.map raw_pairs).flatten) :=
      perm_flatten (hperm.map raw_pairs)
    have hkeys : (((rs.map raw_pairs).flatten).map Prod.fst).Nodup := by
      rw [flatten_map_fst, List.map_map]
      exact hnd
    have hkeys' : (((rs'.map raw_pairs).flatten).map Prod.fst).Nodup :=
      ((hpermJ.map Prod.fst).nodup_iff).mp hkeys
    rw [lastLookup_eq_dlookup_of_nodup k hkeys, lastLookup_eq_dlookup_of_nodup k hkeys']
    exact dlookup_perm_of_nodup k hpermJ hkeys
  · intro rs m k hok habs
    have h1 := aggregate_lookup rs [] m hok k
    rw [show dlookup k ([] : List (String × Nat)) = none from rfl] at h1
    rw [option_match_id] at h1
    rw [h1]
    refine lastLookup_eq_none ?_
    intro p hp
    obtain ⟨l, hl, hpl⟩ := List.mem_flatten.mp hp
    obtain ⟨r, hr, hrl⟩ := List.mem_map.mp hl
    intro he
    refine habs r hr ?_
    rw [← he]
    unfold tagged_bibs
    rw [hrl]
    exact List.mem_map_of_mem Prod.fst hpl

theorem c9_batch_aggregation_witness :
    (["<paper><bibcode>A1</bibcode><feedback>Relevant</feedback></paper>",
      "<paper><bibcode>B2</bibcode><feedback>Unsure</feedback></paper>"] : List String).Perm
      ["<paper><bibcode>B2</bibcode><feedback>Unsure</feedback></paper>",
       "<paper><bibcode>A1</bibcode><feedback>Relevant</feedback></paper>"] ∧
    get_title_relevance
      ["<paper><bibcode>A1</bibcode><feedback>Relevant</feedback></paper>",
       "<paper><bibcode>B2</bibcode><feedback>Unsure</feedback></paper>"] =
      Except.ok [("A1", 2), ("B2", 1)] ∧
    get_title_relevance
      ["<paper><bibcode>B2</bibcode><feedback>Unsure</feedback></paper>",
       "<paper><bibcode>A1</bibcode><feedback>Relevant</feedback></paper>"] =
      Except.ok [("B2", 1), ("A1", 2)] ∧
    ((["<paper><bibcode>A1</bibcode><feedback>Relevant</feedback></paper>",
       "<paper><bibcode>B2</bibcode><feedback>Unsure</feedback></paper>"].map
        tagged_bibs).flatten).Nodup ∧
    ∀ k, dlookup k [("A1", 2), ("B2", 1)] = dlookup k [("B2", 1), ("A1", 2)] := by
  refine ⟨List.Perm.swap _ _ _, rfl, rfl, by decide, ?_⟩
  exact c9_batch_aggregation.1
    ["<paper><bibcode>A1</bibcode><feedback>Relevant</feedback></paper>",
     "<paper><bibcode>B2</bibcode><feedback>Unsure</feedback></paper>"]
    ["<paper><bibcode>B2</bibcode><feedback>Unsure</feedback></paper>",
     "<paper><bibcode>A1</bibcode><feedback>Relevant</feedback></paper>"]
    [("A1", 2), ("B2", 1)] [("B2", 1), ("A1", 2)]
    (List.Perm.swap
      "<paper><bibcode>B2</bibcode><feedback>Unsure</feedback></paper>"
      "<paper><bibcode>A1</bibcode><feedback>Relevant</feedback></paper>" [])
    rfl rfl (by decide)

/-- C10: parsing is insensitive to whitespace formatting: inputs that
differ only in the length or kind of their whitespace runs parse to the
same trees, and ids and titles in the output never contain a newline, a
tab, another non-space whitespace character or two adjacent whitespace
characters. -/
theorem c10_ws_insensitive :
    (∀ s1 s2 : String, WsEq s1.data s2.data → parse_sections s1 = parse_sections s2) ∧
    (∀ s : String, ∀ x ∈ parse_sections s, AttrsNorm x) :=
  ⟨fun _ _ h => wsEq_parse_sections h, parse_sections_attrsNorm⟩

theorem c10_ws_insensitive_witness :
    WsEq ("<section  id=\"a\" title=\"T\"></section>").data
      ("<section id=\"a\" title=\"T\"></section>").data ∧
    parse_sections "<section  id=\"a\" title=\"T\"></section>" =
      parse_sections "<section id=\"a\" title=\"T\"></section>" := by
  have hws : WsEq ("<section  id=\"a\" title=\"T\"></section>").data
      ("<section id=\"a\" title=\"T\"></section>").data := by
    have hrefl : ∀ l : List Char, WsEq l l := by
      intro l
      induction l with
      | nil => exact WsEq.nil
      | cons c cs ih =>
        by_cases hc : pyIsSpace c = true
        · exact @WsEq.ws [c] [c] cs cs (by simp) (by simp)
            (by intro x hx; rw [List.mem_singleton.mp hx]; exact hc)
            (by intro x hx; rw [List.mem_singleton.mp hx]; exact hc) ih
        · exact WsEq.cons (by simpa using hc) ih
    exact @wsEq_append "<section".data "<section".data _ _
      (hrefl _)
      (@WsEq.ws [' ', ' '] [' '] _ _ (by simp) (by simp)
        (by decide) (by decide) (hrefl ("id=\"a\" title=\"T\"></section>").data))
  exact ⟨hws, c10_ws_insensitive.1 _ _ hws⟩

theorem c5_feedback_score_total_witness :
    (pyLower "Highly Relevant" = "highly relevant" ∧ feedback_score "Highly Relevant" = 3) ∧
    (pyLower "weird label" ∉ (["highly relevant", "relevant", "somewhat relevant", "unsure",
        "irrelevant"] : List String) ∧ feedback_score "weird label" = 1) :=
  ⟨⟨rfl, c5_feedback_score_total.1 "Highly Relevant" rfl⟩,
   ⟨by decide, c5_feedback_score_total.2.2.2.2.2 "weird label" (by decide)⟩⟩

